import Mathlib

/-!
# Verification of `aoe_rec_tools` (AoE2 replay anonymizer)

Shallow embedding of the repository's Python sources:

* `src/rec_file.py` — container envelope codec (`RecFile.parse` / `RecFile.write`),
  the anonymization passes (players, chat, elo) and the player-count extractor;
* `src/header.py` — compressed-header sub-codec (`Header.parse` / `Header.pack`);
* `src/test/sample_data.py` — the fabricated header fixture.

Modelling conventions:

* a Python `bytes` / `bytearray` value is a `List Byte` with `Byte := Fin 256`;
* file I/O boundaries (`open` / `file.read` / `file.write`) are replaced by the
  byte sequence read from or written to the file;
* `struct.unpack` failures and raised exceptions become `Option` / `Except`;
* `float` fields (`struct.unpack "<f"`) are kept as their 4 raw little-endian
  bytes: the code never computes with them, it only converts bytes to a float
  and back, which is bit-faithful;
* `zlib.compress` / `zlib.decompress(…, wbits=-15)` are modelled by an
  executable raw-deflate codec that uses stored (uncompressed) blocks.  The
  programme only relies on the codec being a round-tripping pair
  (`inflate (deflate x) = x`) plus the 2-byte-header / 4-byte-checksum layout of
  the zlib envelope, and the model provides exactly these properties;
* the `regex` searches are modelled by explicit scanners that reproduce the
  engine's semantics for the concrete patterns used by the source (leftmost
  match, lazy/greedy quantifier order, `\K`, `pos`/`endpos` clamping, and `.`
  not matching the byte `0x0A`).
-/

set_option maxHeartbeats 1000000
set_option maxRecDepth 100000

/-- A byte, as stored in a Python `bytes` object. -/
abbrev Byte := Fin 256

/-- Little-endian value of a byte list (any length). -/
def leVal : List Byte → Nat
  | [] => 0
  | a :: rest => a.val + 256 * leVal rest

/-- The 2-byte little-endian encoding of `n` (`struct.pack "<H"`, for `n < 2^16`). -/
def le16Bytes (n : Nat) : List Byte :=
  [⟨n % 256, Nat.mod_lt _ (by omega)⟩, ⟨n / 256 % 256, Nat.mod_lt _ (by omega)⟩]

/-- The 4-byte little-endian encoding of `n` (`struct.pack "<I"`, for `n < 2^32`). -/
def le32Bytes (n : Nat) : List Byte :=
  [⟨n % 256, Nat.mod_lt _ (by omega)⟩, ⟨n / 256 % 256, Nat.mod_lt _ (by omega)⟩,
   ⟨n / 256 ^ 2 % 256, Nat.mod_lt _ (by omega)⟩, ⟨n / 256 ^ 3 % 256, Nat.mod_lt _ (by omega)⟩]

/-- Little-endian read of 2 bytes at offset `i` (`struct.unpack_from "<H"`). -/
def le16At (b : List Byte) (i : Nat) : Nat := leVal ((b.drop i).take 2)

/-- Little-endian read of 4 bytes at offset `i` (`struct.unpack_from "<I"`). -/
def le32At (b : List Byte) (i : Nat) : Nat := leVal ((b.drop i).take 4)

theorem leVal_lt (l : List Byte) : leVal l < 256 ^ l.length := by
  induction l with
  | nil => simp [leVal]
  | cons a rest ih =>
      have := a.isLt
      simp only [leVal, List.length_cons, pow_succ]
      calc a.val + 256 * leVal rest < 256 + 256 * leVal rest := by omega
        _ ≤ 256 * (leVal rest + 1) := by ring_nf; omega
        _ ≤ 256 ^ rest.length * 256 := by
            have h2 : leVal rest + 1 ≤ 256 ^ rest.length := ih
            calc 256 * (leVal rest + 1) ≤ 256 * 256 ^ rest.length :=
                  Nat.mul_le_mul_left _ h2
              _ = 256 ^ rest.length * 256 := Nat.mul_comm _ _

theorem leVal_le16Bytes (n : Nat) (h : n < 2 ^ 16) : leVal (le16Bytes n) = n := by
  simp only [le16Bytes, leVal]
  omega

theorem leVal_le32Bytes (n : Nat) (h : n < 2 ^ 32) : leVal (le32Bytes n) = n := by
  simp only [le32Bytes, leVal]
  have h2 : 256 ^ 2 = 65536 := by norm_num
  have h3 : 256 ^ 3 = 16777216 := by norm_num
  rw [h2, h3]
  omega

theorem le16Bytes_leVal (l : List Byte) (h : l.length = 2) :
    le16Bytes (leVal l) = l := by
  match l, h with
  | [a, b], _ =>
    have ha := a.isLt
    have hb := b.isLt
    simp only [le16Bytes, leVal, List.cons.injEq, and_true, Fin.ext_iff]
    omega

theorem le32Bytes_leVal (l : List Byte) (h : l.length = 4) :
    le32Bytes (leVal l) = l := by
  match l, h with
  | [a, b, c, d], _ =>
    have ha := a.isLt
    have hb := b.isLt
    have hc := c.isLt
    have hd := d.isLt
    simp only [le32Bytes, leVal, List.cons.injEq, and_true, Fin.ext_iff]
    have h2 : (256 : Nat) ^ 2 = 65536 := by norm_num
    have h3 : (256 : Nat) ^ 3 = 16777216 := by norm_num
    rw [h2, h3]
    omega

/-! ## Container envelope codec (`src/rec_file.py`, class `RecFile`) -/

namespace Meta

/-- `Meta.byte_length`: 5 `int` fields at 4 bytes, 2 `bool` fields at 1 byte,
plus 3 bytes of padding after each of the 2 bools (28 in total). -/
def byteLength : Nat := 5 * 4 + 2 * 1 + 2 * 3

end Meta

/-- The `RecFile` dataclass: `hlen`, `check`, `header` (compressed bytes),
`log_version`, `meta` (opaque block), `operations` (trailing bytes). -/
structure RecFile where
  hlen : Nat
  check : Nat
  header : List Byte
  log_version : Nat
  meta : List Byte
  operations : List Byte
  deriving DecidableEq, Repr

namespace RecFile

/-- `RecFile.parse`: reads `hlen`, `check` (`"<II"`), then `hlen - 8` header
bytes, one `"<I"` `log_version`, `Meta.byte_length()` meta bytes, and the rest
as `operations`.  The file-name argument is replaced by the file's byte
contents.  A `struct.unpack` on fewer bytes than requested raises, which is
`none` here; `file.read(n)` returns at most the remaining bytes, and a negative
`n` (from `hlen < 8`) reads the whole remainder. -/
def parse (b : List Byte) : Option RecFile :=
  if 8 ≤ b.length then
    let hlen := le32At b 0
    let check := le32At b 4
    let rest := b.drop 8
    let header := if hlen < 8 then rest else rest.take (hlen - 8)
    let rest2 := if hlen < 8 then [] else rest.drop (hlen - 8)
    if 4 ≤ rest2.length then
      some ⟨hlen, check, header, le32At rest2 0,
            (rest2.drop 4).take Meta.byteLength, (rest2.drop 4).drop Meta.byteLength⟩
    else none
  else none

/-- `RecFile.write`: emits `hlen`, `check`, `header`, `log_version`, `meta`,
`operations` in order.  `struct.pack "<I"` raises on an out-of-range value,
hence the guards. -/
def write (r : RecFile) : Option (List Byte) :=
  if r.hlen < 2 ^ 32 ∧ r.check < 2 ^ 32 ∧ r.log_version < 2 ^ 32 then
    some (le32Bytes r.hlen ++ le32Bytes r.check ++ r.header ++
          le32Bytes r.log_version ++ r.meta ++ r.operations)
  else none

end RecFile

theorem take_four_length {α : Type} (l : List α) (h : 4 ≤ l.length) :
    (l.take 4).length = 4 := by
  simp [List.length_take]
  omega

/-- Helper: a successful parse determines every component of the result. -/
theorem RecFile.parse_eq (b : List Byte) (r : RecFile) (h : RecFile.parse b = some r) :
    8 ≤ b.length ∧
    r.hlen = le32At b 0 ∧
    r.check = le32At b 4 ∧
    ((r.hlen < 8 ∧ r.header = b.drop 8) ∨
      (8 ≤ r.hlen ∧ r.header = (b.drop 8).take (r.hlen - 8))) ∧
    (∃ rest2 : List Byte,
      rest2 = (if r.hlen < 8 then [] else (b.drop 8).drop (r.hlen - 8)) ∧
      4 ≤ rest2.length ∧
      r.log_version = le32At rest2 0 ∧
      r.meta = (rest2.drop 4).take Meta.byteLength ∧
      r.operations = (rest2.drop 4).drop Meta.byteLength) := by
  unfold RecFile.parse at h
  by_cases h8 : 8 ≤ b.length
  · simp only [if_pos h8] at h
    by_cases h4 : 4 ≤ (if le32At b 0 < 8 then ([] : List Byte)
        else (b.drop 8).drop (le32At b 0 - 8)).length
    · rw [if_pos h4] at h
      obtain rfl := (Option.some_inj.mp h).symm
      refine ⟨h8, rfl, rfl, ?_, ?_⟩
      · by_cases hl : le32At b 0 < 8
        · exact Or.inl ⟨hl, by simp [hl]⟩
        · refine Or.inr ⟨?_, by simp [hl]⟩
          show 8 ≤ le32At b 0
          omega
      · exact ⟨_, rfl, h4, rfl, rfl, rfl⟩
    · rw [if_neg h4] at h
      exact absurd h (by simp)
  · rw [if_neg h8] at h
    exact absurd h (by simp)

/-- **C1** — Container round-trip: serializing the result of `RecFile.parse`
with `RecFile.write` yields exactly the original bytes (`hlen`, `check`, the
`hlen - 8` header bytes, `log_version`, the 28-byte meta block and the trailing
operations bytes reappear byte-for-byte in the original order).  The
round-trip in fact holds for every byte string that `parse` accepts. -/
theorem c1_container_round_trip (b : List Byte) (r : RecFile)
    (h : RecFile.parse b = some r) : RecFile.write r = some b := by
  obtain ⟨h8, hhlen, hcheck, hheader, rest2, hrest2, h4, hlog, hmeta, hops⟩ :=
    RecFile.parse_eq b r h
  have hhlen_lt : r.hlen < 2 ^ 32 := by
    rw [hhlen]
    calc le32At b 0 < 256 ^ ((b.drop 0).take 4).length := leVal_lt _
      _ ≤ 256 ^ 4 := Nat.pow_le_pow_right (by omega) (by simp [List.length_take])
      _ = 2 ^ 32 := by norm_num
  have hcheck_lt : r.check < 2 ^ 32 := by
    rw [hcheck]
    calc le32At b 4 < 256 ^ ((b.drop 4).take 4).length := leVal_lt _
      _ ≤ 256 ^ 4 := Nat.pow_le_pow_right (by omega) (by simp [List.length_take])
      _ = 2 ^ 32 := by norm_num
  have hlog_lt : r.log_version < 2 ^ 32 := by
    rw [hlog]
    calc le32At rest2 0 < 256 ^ ((rest2.drop 0).take 4).length := leVal_lt _
      _ ≤ 256 ^ 4 := Nat.pow_le_pow_right (by omega) (by simp [List.length_take])
      _ = 2 ^ 32 := by norm_num
  unfold RecFile.write
  rw [if_pos ⟨hhlen_lt, hcheck_lt, hlog_lt⟩]
  congr 1
  -- first 8 bytes
  have hb8 : b.take 8 = le32Bytes r.hlen ++ le32Bytes r.check := by
    have : b.take 8 = b.take 4 ++ (b.drop 4).take 4 := by
      have := List.take_add b 4 4
      simpa using this
    rw [this, hhlen, hcheck]
    have t1 : le32Bytes (le32At b 0) = b.take 4 := by
      unfold le32At
      rw [le32Bytes_leVal]
      · simp
      · simp [List.length_take]; omega
    have t2 : le32Bytes (le32At b 4) = (b.drop 4).take 4 := by
      unfold le32At
      rw [le32Bytes_leVal]
      have h4' : 4 ≤ (b.drop 4).length := by simp [List.length_drop]; omega
      simp [List.length_take]
      omega
    rw [t1, t2]
  -- tail after the header bytes
  have hrest : b.drop 8 = r.header ++ rest2 := by
    rcases hheader with ⟨hl, hh⟩ | ⟨hl, hh⟩
    · rw [hrest2, if_pos hl, hh]
      simp
    · rw [hrest2, if_neg (by omega), hh]
      exact (List.take_append_drop _ _).symm
  have hrest2split : rest2 = le32Bytes r.log_version ++ (r.meta ++ r.operations) := by
    have hsplit : rest2 = rest2.take 4 ++ rest2.drop 4 := (List.take_append_drop _ _).symm
    have t3 : le32Bytes r.log_version = rest2.take 4 := by
      rw [hlog]
      unfold le32At
      rw [le32Bytes_leVal]
      · simp
      · simp [List.length_take]; omega
    rw [hmeta, hops, t3, List.take_append_drop]
    exact hsplit
  symm
  calc b = b.take 8 ++ b.drop 8 := (List.take_append_drop _ _).symm
    _ = (le32Bytes r.hlen ++ le32Bytes r.check) ++ (r.header ++ rest2) := by
        rw [hb8, hrest]
    _ = le32Bytes r.hlen ++ le32Bytes r.check ++ r.header ++
        le32Bytes r.log_version ++ r.meta ++ r.operations := by
        rw [hrest2split]
        simp [List.append_assoc]

/-- Witness for C1: a concrete 43-byte container (empty header, `hlen = 8`)
round-trips. -/
theorem c1_container_round_trip_witness :
    RecFile.write ⟨8, 0, [], 7, List.replicate 28 (0 : Byte), [1, 2, 3]⟩ =
      some (le32Bytes 8 ++ le32Bytes 0 ++ le32Bytes 7 ++
            List.replicate 28 (0 : Byte) ++ [1, 2, 3]) :=
  c1_container_round_trip _ _ (by decide)

/-! ## zlib model

`zlib.compress` produces `2-byte zlib header ++ raw deflate stream ++ 4-byte
Adler-32 checksum`; `zlib.decompress(d, wbits=-15)` inflates a raw deflate
stream.  The model realizes the deflate stream with stored (BTYPE = 0) blocks:
1 byte `BFINAL/BTYPE`, 2-byte `LEN`, 2-byte `NLEN` (ones' complement), `LEN`
literal bytes; an executable codec pair with the inverse property the source
relies on. -/

/-- Maximal payload of one stored deflate block (`LEN` is a `u16`). -/
def storedBlockMax : Nat := 65535

/-- Emit the raw deflate stream for `x` as stored blocks (fuelled; one unit of
fuel per block, `x.length + 1` always suffices). -/
def deflateStoredGo : Nat → List Byte → List Byte
  | 0, _ => []
  | fuel + 1, x =>
    if x.length ≤ storedBlockMax then
      ⟨1, by omega⟩ :: (le16Bytes x.length ++ le16Bytes (storedBlockMax - x.length) ++ x)
    else
      ⟨0, by omega⟩ :: (le16Bytes storedBlockMax ++ le16Bytes 0 ++ x.take storedBlockMax)
        ++ deflateStoredGo fuel (x.drop storedBlockMax)

/-- The raw deflate stream of `x` (model of the stream inside `zlib.compress`). -/
def deflateRaw (x : List Byte) : List Byte := deflateStoredGo (x.length + 1) x

/-- Inflate a raw deflate stream of stored blocks (fuelled); `none` models a
`zlib.error`. -/
def inflateRawGo : Nat → List Byte → Option (List Byte)
  | 0, _ => none
  | fuel + 1, b :: l0 :: l1 :: n0 :: n1 :: r =>
      if b.val / 2 % 4 ≠ 0 then none
      else if l0.val + 256 * l1.val + (n0.val + 256 * n1.val) ≠ storedBlockMax then none
      else if l0.val + 256 * l1.val ≤ r.length then
        if b.val % 2 = 1 then some (r.take (l0.val + 256 * l1.val))
        else (r.take (l0.val + 256 * l1.val) ++ ·) <$>
          inflateRawGo fuel (r.drop (l0.val + 256 * l1.val))
      else none
  | _ + 1, _ => none

/-- Model of `zlib.decompress(x, wbits=-15)`. -/
def inflateRaw (x : List Byte) : Option (List Byte) := inflateRawGo (x.length + 1) x

/-- Adler-32 checksum bytes (big-endian), as appended by `zlib.compress`. -/
def adler32Bytes (x : List Byte) : List Byte :=
  let p := x.foldl
    (fun (ab : Nat × Nat) c => ((ab.1 + c.val) % 65521, (ab.2 + ab.1 + c.val) % 65521))
    (1, 0)
  [⟨p.2 / 256 % 256, Nat.mod_lt _ (by omega)⟩, ⟨p.2 % 256, Nat.mod_lt _ (by omega)⟩,
   ⟨p.1 / 256 % 256, Nat.mod_lt _ (by omega)⟩, ⟨p.1 % 256, Nat.mod_lt _ (by omega)⟩]

/-- Model of `zlib.compress(x)` (default level): zlib header, deflate stream,
Adler-32 trailer. -/
def zlibCompress (x : List Byte) : List Byte :=
  ⟨0x78, by omega⟩ :: ⟨0x9C, by omega⟩ :: (deflateRaw x ++ adler32Bytes x)

theorem adler32Bytes_length (x : List Byte) : (adler32Bytes x).length = 4 := by
  simp [adler32Bytes]

theorem deflateStoredGo_small (fuel : Nat) (x : List Byte) (h : x.length ≤ storedBlockMax) :
    deflateStoredGo (fuel + 1) x =
      ⟨1, by omega⟩ :: ⟨x.length % 256, Nat.mod_lt _ (by omega)⟩ ::
      ⟨x.length / 256 % 256, Nat.mod_lt _ (by omega)⟩ ::
      ⟨(storedBlockMax - x.length) % 256, Nat.mod_lt _ (by omega)⟩ ::
      ⟨(storedBlockMax - x.length) / 256 % 256, Nat.mod_lt _ (by omega)⟩ :: x := by
  rw [deflateStoredGo, if_pos h]
  simp [le16Bytes]

theorem deflateStoredGo_large (fuel : Nat) (x : List Byte) (h : ¬ x.length ≤ storedBlockMax) :
    deflateStoredGo (fuel + 1) x =
      ⟨0, by omega⟩ :: ⟨storedBlockMax % 256, Nat.mod_lt _ (by omega)⟩ ::
      ⟨storedBlockMax / 256 % 256, Nat.mod_lt _ (by omega)⟩ ::
      ⟨0, by omega⟩ :: ⟨0, by omega⟩ ::
      (x.take storedBlockMax ++ deflateStoredGo fuel (x.drop storedBlockMax)) := by
  rw [deflateStoredGo, if_neg h]
  simp [le16Bytes]

theorem inflate_deflate_go (n : Nat) : ∀ x : List Byte, x.length ≤ n →
    ∀ f1 f2 : Nat, x.length < f1 → x.length < f2 →
    inflateRawGo f2 (deflateStoredGo f1 x) = some x := by
  induction n with
  | zero =>
      intro x hx f1 f2 h1 h2
      have hx0 : x = [] := List.length_eq_zero.mp (by omega)
      subst hx0
      match f1, h1 with
      | f1' + 1, _ =>
        match f2, h2 with
        | f2' + 1, _ =>
          rw [deflateStoredGo_small f1' [] (by simp [storedBlockMax])]
          rw [inflateRawGo]
          norm_num [storedBlockMax]
  | succ n ih =>
      intro x hx f1 f2 h1 h2
      match f1, h1 with
      | f1' + 1, _ =>
        match f2, h2 with
        | f2' + 1, _ =>
          by_cases hsmall : x.length ≤ storedBlockMax
          · rw [deflateStoredGo_small f1' x hsmall]
            rw [inflateRawGo]
            have hx16 : x.length < 65536 := by simp [storedBlockMax] at hsmall; omega
            have e1 : x.length % 256 + 256 * (x.length / 256 % 256) = x.length := by omega
            simp only [e1]
            rw [if_neg (by norm_num), if_neg (by simp [storedBlockMax]; omega),
              if_pos (le_refl _), if_pos (by norm_num)]
            simp
          · rw [deflateStoredGo_large f1' x hsmall]
            rw [inflateRawGo]
            have e1 : storedBlockMax % 256 + 256 * (storedBlockMax / 256 % 256) =
                storedBlockMax := by simp [storedBlockMax]
            simp only [e1]
            have htk : (x.take storedBlockMax).length = storedBlockMax := by
              simp [List.length_take]; omega
            rw [if_neg (by norm_num), if_neg (by omega),
              if_pos (by simp only [List.length_append, htk]; omega), if_neg (by norm_num)]
            have htake : (x.take storedBlockMax ++
                deflateStoredGo f1' (x.drop storedBlockMax)).take storedBlockMax =
                x.take storedBlockMax := by
              rw [List.take_append_of_le_length (by omega)]
              simp [List.take_take]
            have hdrop : (x.take storedBlockMax ++
                deflateStoredGo f1' (x.drop storedBlockMax)).drop storedBlockMax =
                deflateStoredGo f1' (x.drop storedBlockMax) := by
              rw [List.drop_append_of_le_length (by omega)]
              simp [htk]
            rw [htake, hdrop]
            have hdlen : (x.drop storedBlockMax).length = x.length - storedBlockMax := by
              simp [List.length_drop]
            have hsbm : storedBlockMax = 65535 := rfl
            have hrec := ih (x.drop storedBlockMax) (by omega) f1' f2' (by omega) (by omega)
            rw [hrec]
            simp

theorem deflateStoredGo_length (f : Nat) : ∀ y : List Byte, y.length < f →
    y.length ≤ (deflateStoredGo f y).length := by
  induction f with
  | zero => intro y hy; omega
  | succ f' ihf =>
      intro y hy
      by_cases hs : y.length ≤ storedBlockMax
      · rw [deflateStoredGo_small f' y hs]
        simp only [List.length_cons]
        omega
      · rw [deflateStoredGo_large f' y hs]
        have hsbm : storedBlockMax = 65535 := rfl
        have := ihf (y.drop storedBlockMax) (by simp [List.length_drop]; omega)
        simp only [List.length_cons, List.length_append, List.length_take,
          List.length_drop] at *
        omega

/-- The model deflate/inflate pair round-trips, as `zlib` does. -/
theorem inflateRaw_deflateRaw (x : List Byte) : inflateRaw (deflateRaw x) = some x := by
  unfold inflateRaw deflateRaw
  have hlen := deflateStoredGo_length (x.length + 1) x (by omega)
  exact inflate_deflate_go x.length x le_rfl _ _ (by omega) (by omega)

/-! ## Header sub-codec (`src/header.py`, class `Header`) -/

/-- Python slice `d[i : i + n]`. -/
def pySlice {α : Type} (d : List α) (i n : Nat) : List α := (d.drop i).take n

/-- Python slice `l[2:-4]` (as used by `pack`: strip the 2-byte zlib header
and the 4-byte Adler-32 trailer). -/
def pySlice2_4 (l : List Byte) : List Byte := (l.take (l.length - 4)).drop 2

/-- `bytes.find(b"\x00")`: index of the first zero byte (`none` for Python's -1). -/
def findZero : List Byte → Option Nat
  | [] => none
  | a :: rest => if a = (0 : Byte) then some 0 else (· + 1) <$> findZero rest

/-- `struct.unpack_from "<i"`: signed 32-bit little-endian read. -/
def s32At (b : List Byte) (i : Nat) : Int :=
  let u := le32At b i
  if u < 2 ^ 31 then (u : Int) else (u : Int) - 2 ^ 32

/-- `struct.pack "<i"` for an in-range signed value. -/
def s32Bytes (t : Int) : List Byte := le32Bytes (t % (2 ^ 32 : Int)).toNat

/-- The `Header` dataclass.  The two `f32` fields (`checker`, `game_version`)
are kept as their 4 raw little-endian bytes.  Structural equality on this
structure is bit-level equality; the Python dataclass `==` (which compares the
two fields as floats, where `nan != nan` and `0.0 == -0.0`) is modelled
separately by `Header.pyEq` below. -/
structure Header where
  rec_version : List Byte
  checker : List Byte
  version_minor : Nat
  version_major : Nat
  game_version : List Byte
  build : Nat
  timestamp : Int
  version : Nat × Nat
  internal_version : Nat × Nat
  data : List Byte
  deriving DecidableEq, Repr

namespace Header

/-- The uncompressed part of `Header.parse`: `null_pos = data.find(b"\x00")`,
`rec_version = data[:null_pos]`, then sequential `unpack_from` reads starting
at offset `null_pos` (the source does not skip the null byte itself), and the
rest is the opaque `data` blob.  A missing null byte makes the first
`unpack_from` (at Python offset -1) raise; reads past the end raise. -/
def parseRaw (d : List Byte) : Option Header :=
  match findZero d with
  | none => none
  | some p =>
    if p + 28 ≤ d.length then
      some ⟨d.take p, pySlice d p 4, le16At d (p + 4), le16At d (p + 6), pySlice d (p + 8) 4,
        le32At d (p + 12), s32At d (p + 16), (le16At d (p + 20), le16At d (p + 22)),
        (le16At d (p + 24), le16At d (p + 26)), d.drop (p + 28)⟩
    else none

/-- `Header.parse(data, is_compressed)`: optionally inflate (raw deflate,
`wbits = -15`), then parse. -/
def parse (d : List Byte) (is_compressed : Bool) : Option Header :=
  if is_compressed then
    match inflateRaw d with
    | none => none
    | some d' => parseRaw d'
  else parseRaw d

/-- `Header.pack`: concatenate the fields, `zlib.compress` the result and
strip with `[2:-4]`.  `struct.pack` raises on out-of-range scalars, hence the
guards (all hold for parsed headers). -/
def pack (h : Header) : Option (List Byte) :=
  if h.checker.length = 4 ∧ h.game_version.length = 4 ∧
      h.version_minor < 2 ^ 16 ∧ h.version_major < 2 ^ 16 ∧ h.build < 2 ^ 32 ∧
      -2 ^ 31 ≤ h.timestamp ∧ h.timestamp < 2 ^ 31 ∧
      h.version.1 < 2 ^ 16 ∧ h.version.2 < 2 ^ 16 ∧
      h.internal_version.1 < 2 ^ 16 ∧ h.internal_version.2 < 2 ^ 16 then
    some (pySlice2_4 (zlibCompress
      (h.rec_version ++ h.checker ++ le16Bytes h.version_minor ++
        le16Bytes h.version_major ++ h.game_version ++ le32Bytes h.build ++
        s32Bytes h.timestamp ++ le16Bytes h.version.1 ++ le16Bytes h.version.2 ++
        le16Bytes h.internal_version.1 ++ le16Bytes h.internal_version.2 ++ h.data)))
  else none

end Header

/-- The fabricated header fixture from `test/sample_data.py`
(`get_header_fabricated`): signature `01 01 01 01 00`, checker `-1.0`
(`00 00 80 BF`), minor 2, major 3, build 4, timestamp 5, version `(6, 7)`,
internal `(8, 9)`, payload `0A 0B 0C 0D 0E 0F`.  Note the fixture contains no
bytes for the `game_version` field of the dataclass. -/
def headerFabricated : List Byte :=
  [1, 1, 1, 1, 0] ++ [0, 0, 0x80, 0xBF] ++ [2, 0] ++ [3, 0] ++
  [4, 0, 0, 0] ++ [5, 0, 0, 0] ++ [6, 0, 7, 0] ++ [8, 0, 9, 0] ++
  [0x0A, 0x0B, 0x0C, 0x0D, 0x0E, 0x0F]

/-- **C2** — Fabricated-header parse (code bug): on the fixture,
`Header.parse(data, is_compressed=False)` does *not* return the literal field
values the spec and the repository's own test
(`test_parse_should_read_data_properly`) assert.  `parse` sets
`offset = null_pos` instead of `null_pos + 1`, so `rec_version` loses its
terminating null byte and every scalar field is read one byte early (the
fixture also lacks a `game_version` field, shifting `build` and later fields by
four more bytes): the result has `rec_version = 01 01 01 01` (claim:
`01 01 01 01 00`), `checker` bytes `00 00 00 80` (claim: `00 00 80 BF`,
i.e. -1.0) and `version_minor = 703` (claim: 2). -/
theorem c2_fabricated_header_parse_bug :
    ∃ h : Header, Header.parse headerFabricated false = some h ∧
      h.rec_version = [1, 1, 1, 1] ∧
      h.checker = [0, 0, 0, 0x80] ∧
      h.version_minor = 703 ∧
      h.rec_version ≠ [1, 1, 1, 1, 0] ∧
      h.checker ≠ [0, 0, 0x80, 0xBF] ∧
      h.version_minor ≠ 2 := by
  refine ⟨(⟨[1, 1, 1, 1], [0, 0, 0, 0x80], 703, 768, [0, 4, 0, 0], 1280,
    117442048, (2048, 2304), (2560, 3083), [0x0D, 0x0E, 0x0F]⟩ : Header),
    ?_, ?_, ?_, ?_, ?_, ?_, ?_⟩
  · rfl
  · rfl
  · rfl
  · rfl
  · decide
  · decide
  · decide

theorem pySlice_chain (d : List Byte) (i n : Nat) :
    pySlice d i n ++ d.drop (i + n) = d.drop i := by
  unfold pySlice
  have h : d.drop (i + n) = (d.drop i).drop n := by
    rw [List.drop_drop, Nat.add_comm]
  rw [h]
  exact List.take_append_drop _ _

theorem pySlice_length (d : List Byte) (i n : Nat) (h : i + n ≤ d.length) :
    (pySlice d i n).length = n := by
  simp [pySlice, List.length_take, List.length_drop]
  omega

theorem le16At_lt (d : List Byte) (i : Nat) : le16At d i < 2 ^ 16 := by
  have h := leVal_lt ((d.drop i).take 2)
  have h2 : ((d.drop i).take 2).length ≤ 2 := by
    simp [List.length_take]
  calc le16At d i < 256 ^ ((d.drop i).take 2).length := h
    _ ≤ 256 ^ 2 := Nat.pow_le_pow_right (by omega) h2
    _ = 2 ^ 16 := by norm_num

theorem le32At_lt (d : List Byte) (i : Nat) : le32At d i < 2 ^ 32 := by
  have h := leVal_lt ((d.drop i).take 4)
  have h2 : ((d.drop i).take 4).length ≤ 4 := by
    simp [List.length_take]
  calc le32At d i < 256 ^ ((d.drop i).take 4).length := h
    _ ≤ 256 ^ 4 := Nat.pow_le_pow_right (by omega) h2
    _ = 2 ^ 32 := by norm_num

theorem le16Bytes_le16At (d : List Byte) (i : Nat) (h : i + 2 ≤ d.length) :
    le16Bytes (le16At d i) = pySlice d i 2 := by
  unfold le16At pySlice
  exact le16Bytes_leVal _ (by simp [List.length_take, List.length_drop]; omega)

theorem le32Bytes_le32At (d : List Byte) (i : Nat) (h : i + 4 ≤ d.length) :
    le32Bytes (le32At d i) = pySlice d i 4 := by
  unfold le32At pySlice
  exact le32Bytes_leVal _ (by simp [List.length_take, List.length_drop]; omega)

theorem s32At_range (d : List Byte) (i : Nat) :
    -2 ^ 31 ≤ s32At d i ∧ s32At d i < 2 ^ 31 := by
  have hu := le32At_lt d i
  have h0 : (0 : Int) ≤ (le32At d i : Int) := Int.natCast_nonneg _
  have hu' : (le32At d i : Int) < 4294967296 := by exact_mod_cast hu
  have hp31 : ((2 : Int) ^ 31) = 2147483648 := by norm_num
  unfold s32At
  by_cases hcase : le32At d i < 2 ^ 31
  · have hc' : (le32At d i : Int) < 2147483648 := by exact_mod_cast hcase
    rw [if_pos hcase]
    constructor
    · calc (-2 ^ 31 : Int) ≤ 0 := by norm_num
        _ ≤ _ := h0
    · rw [hp31]; exact hc'
  · have hc' : (2147483648 : Int) ≤ (le32At d i : Int) := by
      push_neg at hcase
      exact_mod_cast hcase
    rw [if_neg hcase]
    constructor
    · have he : (-2 ^ 31 : Int) = 2147483648 - 2 ^ 32 := by norm_num
      rw [he]
      exact sub_le_sub_right hc' _
    · have hlt : (le32At d i : Int) - 2 ^ 32 < 0 := by
        have h32 : ((2 : Int) ^ 32) = 4294967296 := by norm_num
        omega
      calc (le32At d i : Int) - 2 ^ 32 < 0 := hlt
        _ < 2 ^ 31 := by norm_num

theorem s32Bytes_s32At (d : List Byte) (i : Nat) (h : i + 4 ≤ d.length) :
    s32Bytes (s32At d i) = pySlice d i 4 := by
  have hu := le32At_lt d i
  have hval : (s32At d i % (2 ^ 32 : Int)).toNat = le32At d i := by
    unfold s32At
    by_cases hcase : le32At d i < 2 ^ 31
    · rw [if_pos hcase]
      omega
    · rw [if_neg hcase]
      push_neg at hcase
      omega
  unfold s32Bytes
  rw [hval]
  exact le32Bytes_le32At d i h

/-- Reassembling the slices read by `Header.parseRaw` gives back the buffer. -/
theorem header_assemble (d : List Byte) (p : Nat) :
    d.take p ++ pySlice d p 4 ++ pySlice d (p + 4) 2 ++ pySlice d (p + 6) 2 ++
    pySlice d (p + 8) 4 ++ pySlice d (p + 12) 4 ++ pySlice d (p + 16) 4 ++
    pySlice d (p + 20) 2 ++ pySlice d (p + 22) 2 ++ pySlice d (p + 24) 2 ++
    pySlice d (p + 26) 2 ++ d.drop (p + 28) = d := by
  have c11 : pySlice d (p + 26) 2 ++ d.drop (p + 28) = d.drop (p + 26) := by
    have h := pySlice_chain d (p + 26) 2
    rwa [show p + 26 + 2 = p + 28 from by omega] at h
  have c10 : pySlice d (p + 24) 2 ++ d.drop (p + 26) = d.drop (p + 24) := by
    have h := pySlice_chain d (p + 24) 2
    rwa [show p + 24 + 2 = p + 26 from by omega] at h
  have c9 : pySlice d (p + 22) 2 ++ d.drop (p + 24) = d.drop (p + 22) := by
    have h := pySlice_chain d (p + 22) 2
    rwa [show p + 22 + 2 = p + 24 from by omega] at h
  have c8 : pySlice d (p + 20) 2 ++ d.drop (p + 22) = d.drop (p + 20) := by
    have h := pySlice_chain d (p + 20) 2
    rwa [show p + 20 + 2 = p + 22 from by omega] at h
  have c7 : pySlice d (p + 16) 4 ++ d.drop (p + 20) = d.drop (p + 16) := by
    have h := pySlice_chain d (p + 16) 4
    rwa [show p + 16 + 4 = p + 20 from by omega] at h
  have c6 : pySlice d (p + 12) 4 ++ d.drop (p + 16) = d.drop (p + 12) := by
    have h := pySlice_chain d (p + 12) 4
    rwa [show p + 12 + 4 = p + 16 from by omega] at h
  have c5 : pySlice d (p + 8) 4 ++ d.drop (p + 12) = d.drop (p + 8) := by
    have h := pySlice_chain d (p + 8) 4
    rwa [show p + 8 + 4 = p + 12 from by omega] at h
  have c4 : pySlice d (p + 6) 2 ++ d.drop (p + 8) = d.drop (p + 6) := by
    have h := pySlice_chain d (p + 6) 2
    rwa [show p + 6 + 2 = p + 8 from by omega] at h
  have c3 : pySlice d (p + 4) 2 ++ d.drop (p + 6) = d.drop (p + 4) := by
    have h := pySlice_chain d (p + 4) 2
    rwa [show p + 4 + 2 = p + 6 from by omega] at h
  have c2 : pySlice d p 4 ++ d.drop (p + 4) = d.drop p := by
    have h := pySlice_chain d p 4
    exact h
  simp only [List.append_assoc]
  rw [c11, c10, c9, c8, c7, c6, c5, c4, c3, c2, List.take_append_drop]

theorem pySlice2_4_zlibCompress (x : List Byte) :
    pySlice2_4 (zlibCompress x) = deflateRaw x := by
  unfold pySlice2_4 zlibCompress
  have hre : (⟨0x78, by omega⟩ :: ⟨0x9C, by omega⟩ ::
      (deflateRaw x ++ adler32Bytes x) : List Byte) =
      (⟨0x78, by omega⟩ :: ⟨0x9C, by omega⟩ :: deflateRaw x : List Byte) ++
        adler32Bytes x := by
    simp
  rw [hre]
  have hlen4 : ((⟨0x78, by omega⟩ :: ⟨0x9C, by omega⟩ :: deflateRaw x : List Byte) ++
      adler32Bytes x).length - 4 =
      (⟨0x78, by omega⟩ :: ⟨0x9C, by omega⟩ :: deflateRaw x : List Byte).length := by
    simp [List.length_append, adler32Bytes_length]
  rw [hlen4, List.take_left]
  rfl

/-- Helper: a successful raw header parse determines the result. -/
theorem Header.parseRaw_eq (d : List Byte) (h : Header)
    (hp : Header.parseRaw d = some h) :
    ∃ p, findZero d = some p ∧ p + 28 ≤ d.length ∧
      h = ⟨d.take p, pySlice d p 4, le16At d (p + 4), le16At d (p + 6),
        pySlice d (p + 8) 4, le32At d (p + 12), s32At d (p + 16),
        (le16At d (p + 20), le16At d (p + 22)),
        (le16At d (p + 24), le16At d (p + 26)), d.drop (p + 28)⟩ := by
  unfold Header.parseRaw at hp
  split at hp
  · exact absurd hp (by simp)
  · rename_i p hfz
    split at hp
    · rename_i hb
      exact ⟨p, hfz, hb, (Option.some_inj.mp hp).symm⟩
    · exact absurd hp (by simp)

/-- A 4-byte little-endian IEEE-754 binary32 pattern denotes a NaN: exponent
bits all ones and mantissa nonzero.  `struct.unpack "<f"` yields a Python
float that compares unequal to everything — including itself — exactly for
these patterns. -/
def isNan32 : List Byte → Bool
  | [b0, b1, b2, b3] =>
      (b3.val % 128) * 2 + b2.val / 128 == 255 &&
      !(b0.val == 0 && b1.val == 0 && b2.val % 128 == 0)
  | _ => false

/-- A binary32 pattern for `±0.0` (the one value with two bit patterns;
Python's `0.0 == -0.0` is `True`). -/
def isZero32 : List Byte → Bool
  | [b0, b1, b2, b3] =>
      b0.val == 0 && b1.val == 0 && b2.val == 0 && (b3.val == 0 || b3.val == 128)
  | _ => false

/-- Python `==` on the floats obtained by `struct.unpack "<f"` from the two
byte patterns: a NaN is unequal to everything (itself included), `0.0 == -0.0`,
and every other binary32 value is denoted by exactly one bit pattern (widening
to the Python double is injective). -/
def floatPyEq (a b : List Byte) : Bool :=
  if isNan32 a || isNan32 b then false
  else a == b || (isZero32 a && isZero32 b)

/-- The dataclass-generated `Header.__eq__`: field-by-field equality in which
`checker` and `game_version` are compared as Python floats. -/
def Header.pyEq (h1 h2 : Header) : Bool :=
  h1.rec_version == h2.rec_version && floatPyEq h1.checker h2.checker &&
  h1.version_minor == h2.version_minor && h1.version_major == h2.version_major &&
  floatPyEq h1.game_version h2.game_version && h1.build == h2.build &&
  h1.timestamp == h2.timestamp && h1.version == h2.version &&
  h1.internal_version == h2.internal_version && h1.data == h2.data

/-- An uncompressed fixture whose (buggy) `checker` read at the null position
yields the canonical quiet-NaN pattern `00 00 C0 7F` (`0x7FC00000`); the other
scalar fields are ordinary small values. -/
def headerNanFixture : List Byte :=
  [1, 1, 1, 1] ++ [0, 0, 0xC0, 0x7F] ++ [2, 0] ++ [3, 0] ++ [0, 0, 0, 0] ++
  [4, 0, 0, 0] ++ [5, 0, 0, 0] ++ [6, 0, 7, 0] ++ [8, 0, 9, 0] ++ [0x0A, 0x0B]

/-- Helper: the parse/pack cycle reproduces a parsed header bit-for-bit —
`pack` concatenates exactly the byte slices `parse` read (the scalar fields
re-serialize to their source bytes) and the raw-deflate round trip is exact. -/
theorem Header.parse_pack_eq (d : List Byte) (h : Header)
    (hp : Header.parse d false = some h) :
    ∃ packed, Header.pack h = some packed ∧ Header.parse packed true = some h := by
  have hraw : Header.parseRaw d = some h := by
    unfold Header.parse at hp
    simpa using hp
  obtain ⟨p, hfz, hb, hh⟩ := Header.parseRaw_eq d h hraw
  have g1 : (pySlice d p 4).length = 4 := pySlice_length d p 4 (by omega)
  have g2 : (pySlice d (p + 8) 4).length = 4 := pySlice_length d (p + 8) 4 (by omega)
  have grange := s32At_range d (p + 16)
  have hguard : h.checker.length = 4 ∧ h.game_version.length = 4 ∧
      h.version_minor < 2 ^ 16 ∧ h.version_major < 2 ^ 16 ∧ h.build < 2 ^ 32 ∧
      -2 ^ 31 ≤ h.timestamp ∧ h.timestamp < 2 ^ 31 ∧
      h.version.1 < 2 ^ 16 ∧ h.version.2 < 2 ^ 16 ∧
      h.internal_version.1 < 2 ^ 16 ∧ h.internal_version.2 < 2 ^ 16 := by
    rw [hh]
    exact ⟨g1, g2, le16At_lt _ _, le16At_lt _ _, le32At_lt _ _,
      grange.1, grange.2, le16At_lt _ _, le16At_lt _ _, le16At_lt _ _, le16At_lt _ _⟩
  have hfield : h.rec_version ++ h.checker ++ le16Bytes h.version_minor ++
      le16Bytes h.version_major ++ h.game_version ++ le32Bytes h.build ++
      s32Bytes h.timestamp ++ le16Bytes h.version.1 ++ le16Bytes h.version.2 ++
      le16Bytes h.internal_version.1 ++ le16Bytes h.internal_version.2 ++ h.data = d := by
    rw [hh]
    show d.take p ++ pySlice d p 4 ++ le16Bytes (le16At d (p + 4)) ++
      le16Bytes (le16At d (p + 6)) ++ pySlice d (p + 8) 4 ++
      le32Bytes (le32At d (p + 12)) ++ s32Bytes (s32At d (p + 16)) ++
      le16Bytes (le16At d (p + 20)) ++ le16Bytes (le16At d (p + 22)) ++
      le16Bytes (le16At d (p + 24)) ++ le16Bytes (le16At d (p + 26)) ++
      d.drop (p + 28) = d
    rw [le16Bytes_le16At d (p + 4) (by omega), le16Bytes_le16At d (p + 6) (by omega),
      le32Bytes_le32At d (p + 12) (by omega), s32Bytes_s32At d (p + 16) (by omega),
      le16Bytes_le16At d (p + 20) (by omega), le16Bytes_le16At d (p + 22) (by omega),
      le16Bytes_le16At d (p + 24) (by omega), le16Bytes_le16At d (p + 26) (by omega)]
    exact header_assemble d p
  unfold Header.pack
  rw [if_pos hguard]
  refine ⟨_, rfl, ?_⟩
  rw [pySlice2_4_zlibCompress, hfield]
  show (match inflateRaw (deflateRaw d) with
    | none => none
    | some d' => Header.parseRaw d') = some h
  rw [inflateRaw_deflateRaw]
  exact hraw

/-- **C3 counterexample** — the original claim fails inside its own scope: on
a fixture whose `checker` field holds a quiet-NaN pattern, `Header.parse`
succeeds and the pack/parse cycle reproduces the header bit-for-bit, yet the
program's `parse(pack(h), True) == h` is `False`, because the dataclass `==`
compares `checker` as a float and `nan != nan`. -/
theorem c3_nan_header_counterexample :
    ∃ h : Header, Header.parse headerNanFixture false = some h ∧
      isNan32 h.checker = true ∧ Header.pyEq h h = false ∧
      ∃ packed, Header.pack h = some packed ∧
        ∀ h2, Header.parse packed true = some h2 → Header.pyEq h2 h = false := by
  refine ⟨(⟨[1, 1, 1, 1], [0, 0, 0xC0, 0x7F], 2, 3, [0, 0, 0, 0], 4, 5, (6, 7),
    (8, 9), [0x0A, 0x0B]⟩ : Header), by rfl, by rfl, by decide, ?_⟩
  obtain ⟨packed, hpk, hpr⟩ := Header.parse_pack_eq headerNanFixture
    (⟨[1, 1, 1, 1], [0, 0, 0xC0, 0x7F], 2, 3, [0, 0, 0, 0], 4, 5, (6, 7),
      (8, 9), [0x0A, 0x0B]⟩ : Header) (by rfl)
  refine ⟨packed, hpk, ?_⟩
  intro h2 hh2
  rw [hpr] at hh2
  rw [← Option.some_inj.mp hh2]
  decide

/-- **C3 amended** — Header round-trip: for every `Header` obtained by
`Header.parse(data, is_compressed=False)` on an uncompressed fixture (which
requires a null byte and 28 trailing bytes for the scalar fields), *provided
neither `checker` nor `game_version` holds a NaN bit pattern*,
`Header.parse(h.pack(), is_compressed=True)` reproduces `h` bit-for-bit and
the program's dataclass equality `parse(pack(h), True) == h` is `True`, even
though `pack` strips the 2-byte zlib header and the 4-byte trailing checksum
and the deflate stream itself is not fixed.  (With a NaN field the dataclass
`==` is `False` — see the counterexample.) -/
theorem c3_header_round_trip (d : List Byte) (h : Header)
    (hp : Header.parse d false = some h)
    (hc : isNan32 h.checker = false) (hg : isNan32 h.game_version = false) :
    ∃ packed, Header.pack h = some packed ∧ Header.parse packed true = some h ∧
      Header.pyEq h h = true := by
  obtain ⟨packed, hpk, hpr⟩ := Header.parse_pack_eq d h hp
  refine ⟨packed, hpk, hpr, ?_⟩
  have hfc : floatPyEq h.checker h.checker = true := by
    unfold floatPyEq
    rw [hc]
    simp
  have hfg : floatPyEq h.game_version h.game_version = true := by
    unfold floatPyEq
    rw [hg]
    simp
  unfold Header.pyEq
  rw [hfc, hfg]
  simp

/-- Witness for the amended C3: the fabricated fixture (whose float fields are
-0.0 and a denormal, not NaNs) round-trips through
`pack` / `parse(…, is_compressed=True)` up to Python equality. -/
theorem c3_header_round_trip_witness :
    ∃ packed, Header.pack (⟨[1, 1, 1, 1], [0, 0, 0, 0x80], 703, 768, [0, 4, 0, 0],
        1280, 117442048, (2048, 2304), (2560, 3083), [0x0D, 0x0E, 0x0F]⟩ : Header) =
        some packed ∧
      Header.parse packed true = some ⟨[1, 1, 1, 1], [0, 0, 0, 0x80], 703, 768,
        [0, 4, 0, 0], 1280, 117442048, (2048, 2304), (2560, 3083),
        [0x0D, 0x0E, 0x0F]⟩ ∧
      Header.pyEq ⟨[1, 1, 1, 1], [0, 0, 0, 0x80], 703, 768, [0, 4, 0, 0],
        1280, 117442048, (2048, 2304), (2560, 3083), [0x0D, 0x0E, 0x0F]⟩
        ⟨[1, 1, 1, 1], [0, 0, 0, 0x80], 703, 768, [0, 4, 0, 0],
        1280, 117442048, (2048, 2304), (2560, 3083), [0x0D, 0x0E, 0x0F]⟩ = true :=
  c3_header_round_trip headerFabricated _ (by rfl) (by decide) (by decide)

/-! ## Buffer edits (Python `bytearray` slice assignment) -/

/-- Byte at index `i` (reads are always guarded by explicit bounds). -/
def byteAt (d : List Byte) (i : Nat) : Byte := d.getD i 0

/-- `data[a:b] = repl` on a `bytearray` (for `a ≤ b`): splice `repl` over the
range `[a, b)`, shifting the tail. -/
def splice (d : List Byte) (a b : Nat) (repl : List Byte) : List Byte :=
  d.take a ++ repl ++ d.drop b

theorem splice_length (d : List Byte) (a b : Nat) (repl : List Byte) (ha : a ≤ d.length) :
    (splice d a b repl).length = a + repl.length + (d.length - b) := by
  simp [splice, List.length_append, List.length_take, List.length_drop]
  omega

theorem drop_splice (d : List Byte) (a b : Nat) (repl : List Byte) (ha : a ≤ d.length) :
    (splice d a b repl).drop a = repl ++ d.drop b := by
  unfold splice
  rw [List.append_assoc]
  rw [List.drop_append_of_le_length (by simp [List.length_take]; omega)]
  have h : (d.take a).length = a := by simp [List.length_take]; omega
  rw [show (d.take a).drop a = [] from by
    apply List.drop_eq_nil_of_le
    simp [List.length_take]]
  simp

theorem pySlice_splice_at (d : List Byte) (a b : Nat) (repl : List Byte)
    (ha : a ≤ d.length) :
    pySlice (splice d a b repl) a repl.length = repl := by
  unfold pySlice
  rw [drop_splice d a b repl ha]
  exact List.take_left _ _

theorem pySlice_take (d : List Byte) (m i k : Nat) (h : i + k ≤ m) :
    pySlice (d.take m) i k = pySlice d i k := by
  unfold pySlice
  rw [List.drop_take]
  rw [List.take_take]
  congr 1
  omega

theorem pySlice_append_left (x y : List Byte) (i k : Nat) (h : i + k ≤ x.length) :
    pySlice (x ++ y) i k = pySlice x i k := by
  unfold pySlice
  rw [List.drop_append_of_le_length (by omega)]
  rw [List.take_append_of_le_length (by simp [List.length_drop]; omega)]

/-- Frame: a splice strictly to the right of a slice does not change it. -/
theorem pySlice_splice_frame_left (d : List Byte) (a b : Nat) (repl : List Byte)
    (i k : Nat) (h : i + k ≤ a) (ha : a ≤ d.length) :
    pySlice (splice d a b repl) i k = pySlice d i k := by
  unfold splice
  rw [List.append_assoc]
  rw [pySlice_append_left _ _ i k (by simp [List.length_take]; omega)]
  exact pySlice_take d a i k h

/-! ## Player locator/anonymizer (`RecFile._anonymize_next_player`,
`RecFile._anonymize_players`)

The primary pattern is
`\x60\x0A\K(?P<length>[\x01-\xFF])\x00(?P<name>.{0,255}?)\x02\x00\x00\x00(?P<profile_id>.{4})`
searched with `pos = offset`, `endpos = 0x330`.  `.` does not match `\x0A`;
the name group is lazy (smallest viable length); `\K` makes the reported match
start at the length byte.  The scanner below reproduces this: it tries
attempt starts `t` from `pos` upward, and at each start grows the name length
`n` from 0, exactly like the engine's backtracking. -/

/-- The 4-byte separator `\x02\x00\x00\x00` of the player pattern. -/
def sep4 : List Byte := [2, 0, 0, 0]

/-- Grow the lazy name group at attempt start `t`: try the current length `n`;
on failure extend by one byte if that byte is name-compatible (not `\x0A`,
at most 255 bytes).  Returns the matched name length. -/
def playerNGo (data : List Byte) (endposC t : Nat) : Nat → Nat → Option Nat
  | 0, _ => none
  | fuel + 1, n =>
    if t + n + 12 ≤ endposC ∧ pySlice data (t + 4 + n) 4 = sep4 ∧
        (∀ b ∈ pySlice data (t + 8 + n) 4, b ≠ (10 : Byte)) then
      some n
    else if byteAt data (t + 4 + n) ≠ (10 : Byte) ∧ n < 255 then
      playerNGo data endposC t fuel (n + 1)
    else none

/-- Try a full player-pattern match at attempt start `t` (the position of the
`\x60` byte); returns the name length on success. -/
def playerNAt (data : List Byte) (endposC t : Nat) : Option Nat :=
  if byteAt data t = (0x60 : Byte) ∧ byteAt data (t + 1) = (0x0A : Byte) ∧
      byteAt data (t + 2) ≠ (0 : Byte) ∧ byteAt data (t + 3) = (0 : Byte) then
    playerNGo data endposC t 256 0
  else none

/-- Leftmost player-pattern match scanning attempt starts from `t` up. -/
def playerSearchGo (data : List Byte) (endposC : Nat) : Nat → Nat → Option (Nat × Nat)
  | 0, _ => none
  | fuel + 1, t =>
    match playerNAt data endposC t with
    | some n => some (t, n)
    | none => playerSearchGo data endposC fuel (t + 1)

/-- `regex.search(player pattern, data, pos=offset, endpos=0x330)`: returns
`(t, n)` with `t` the position of the `\x60` byte (`match.start()` is `t + 2`
because of `\K`) and `n` the length of the lazy name group. -/
def playerSearch (data : List Byte) (pos : Nat) : Option (Nat × Nat) :=
  let endposC := min 0x330 data.length
  playerSearchGo data endposC (endposC - pos) pos

/-- Decimal digits of `n` in ASCII (fuelled division loop). -/
def natDigitsGo : Nat → Nat → List Byte
  | 0, n => [⟨48 + n % 10, by omega⟩]
  | fuel + 1, n =>
    if n < 10 then [⟨48 + n % 10, by omega⟩]
    else natDigitsGo fuel (n / 10) ++ [⟨48 + n % 10, by omega⟩]

def natDigits (n : Nat) : List Byte := natDigitsGo n n

/-- `f"player {id + 1}".encode()`:  the bytes of `player ` followed by the
decimal digits of `id + 1`. -/
def targetNameBytes (id : Nat) : List Byte :=
  ([112, 108, 97, 121, 101, 114, 32] : List Byte) ++ natDigits (id + 1)

/-- `regex.search(regex.escape(pat), data, pos=i)`: leftmost occurrence of the
literal byte string `pat` at or after `i`. -/
def substringFindGo (data pat : List Byte) : Nat → Nat → Option Nat
  | 0, _ => none
  | fuel + 1, i =>
    if i + pat.length ≤ data.length then
      if pySlice data i pat.length = pat then some i
      else substringFindGo data pat fuel (i + 1)
    else none

def substringFind (data pat : List Byte) (pos : Nat) : Option Nat :=
  substringFindGo data pat (data.length + 1) pos

/-- The lobby-settings rewrite of `_anonymize_next_player` after a primary
match at `t`: replace `length_byte + 0x00 + name` (`L + 2` bytes from
`match_start = t + 2`) by the 2-byte length plus `player {id+1}`, then zero
the 4 profile-id bytes at `profile_start_adjusted`
(`match_start + 2 + L + 4 - (L - T)`, i.e. `t + 8 + T`). -/
def playerAfterPrimary (id : Nat) (data : List Byte) (t : Nat) : List Byte :=
  let L := (byteAt data (t + 2)).val
  let target := targetNameBytes id
  let T := target.length
  let psa := t + 8 + T
  splice (splice data (t + 2) (t + 4 + L) (le16Bytes T ++ target)) psa (psa + 4)
    [0, 0, 0, 0]

/-- `RecFile._anonymize_next_player(id, offset, data)`: on a primary match,
rewrite the lobby-settings record, then search for the attributes duplicate
(`pack("<H", L + 1) + original name`) after the profile id and rewrite it too;
returns the next scan origin, or -1 when the primary or the duplicate is not
found, together with the (mutated) buffer. -/
def anonymizeNextPlayer (id offset : Nat) (data : List Byte) : Int × List Byte :=
  match playerSearch data offset with
  | none => (-1, data)
  | some (t, n) =>
    let L := (byteAt data (t + 2)).val
    let name := pySlice data (t + 4) n
    let target := targetNameBytes id
    let T := target.length
    let psa := t + 8 + T
    let data2 := playerAfterPrimary id data t
    match substringFind data2 (le16Bytes (L + 1) ++ name) (psa + 4) with
    | some m =>
        (((psa + 4 : Nat) : Int), splice data2 m (m + L + 2) (le16Bytes (T + 1) ++ target))
    | none => (-1, data2)

/-- The `for i in range(num_players)` loop of `_anonymize_players` on the
decompressed buffer: a returned -1 raises. -/
def anonymizePlayersGo : Nat → Nat → Nat → List Byte → Except String (List Byte)
  | 0, _, _, data => .ok data
  | count + 1, i, offset, data =>
    let r := anonymizeNextPlayer i offset data
    if r.1 < 0 then .error "Could not anonymize player"
    else anonymizePlayersGo count (i + 1) r.1.toNat r.2

/-- `RecFile._anonymize_players`: decompress the header, run the loop,
recompress (stripping the zlib envelope) and recompute `hlen`. -/
def RecFile.anonymizePlayers (r : RecFile) (numPlayers : Nat) : Except String RecFile :=
  match inflateRaw r.header with
  | none => .error "zlib decompress failed"
  | some data =>
    match anonymizePlayersGo numPlayers 0 0 data with
    | .error e => .error e
    | .ok d' =>
        let newHeader := pySlice2_4 (zlibCompress d')
        .ok { r with header := newHeader, hlen := newHeader.length + 8 }

theorem playerNGo_some (data : List Byte) (endposC t : Nat) :
    ∀ fuel n0 n, playerNGo data endposC t fuel n0 = some n →
      t + n + 12 ≤ endposC ∧ pySlice data (t + 4 + n) 4 = sep4 := by
  intro fuel
  induction fuel with
  | zero =>
      intro n0 n h
      simp [playerNGo] at h
  | succ f ih =>
      intro n0 n h
      rw [playerNGo] at h
      split at h
      · rename_i hcond
        obtain rfl : n0 = n := Option.some_inj.mp h
        exact ⟨hcond.1, hcond.2.1⟩
      · split at h
        · exact ih _ _ h
        · exact absurd h (by simp)

theorem playerNAt_some (data : List Byte) (endposC t n : Nat)
    (h : playerNAt data endposC t = some n) :
    byteAt data (t + 2) ≠ (0 : Byte) ∧ t + n + 12 ≤ endposC ∧
      pySlice data (t + 4 + n) 4 = sep4 := by
  unfold playerNAt at h
  split at h
  · rename_i hc
    have h2 := playerNGo_some data endposC t 256 0 n h
    exact ⟨hc.2.2.1, h2.1, h2.2⟩
  · exact absurd h (by simp)

theorem playerSearchGo_some (data : List Byte) (endposC : Nat) :
    ∀ fuel t tn, playerSearchGo data endposC fuel t = some tn →
      playerNAt data endposC tn.1 = some tn.2 := by
  intro fuel
  induction fuel with
  | zero =>
      intro t tn h
      simp [playerSearchGo] at h
  | succ f ih =>
      intro t tn h
      rw [playerSearchGo] at h
      split at h
      · rename_i n hn
        obtain rfl : (t, n) = tn := Option.some_inj.mp h
        exact hn
      · exact ih _ _ h

theorem playerSearch_some (data : List Byte) (pos t n : Nat)
    (h : playerSearch data pos = some (t, n)) :
    byteAt data (t + 2) ≠ (0 : Byte) ∧ t + n + 12 ≤ data.length ∧
      pySlice data (t + 4 + n) 4 = sep4 := by
  unfold playerSearch at h
  have h2 := playerSearchGo_some data _ _ _ _ h
  have h3 := playerNAt_some data _ t n h2
  refine ⟨h3.1, ?_, h3.2.2⟩
  have := h3.2.1
  have hmin : min 0x330 data.length ≤ data.length := Nat.min_le_right _ _
  omega

theorem substringFindGo_some (data pat : List Byte) :
    ∀ fuel i m, substringFindGo data pat fuel i = some m →
      i ≤ m ∧ m + pat.length ≤ data.length ∧ pySlice data m pat.length = pat := by
  intro fuel
  induction fuel with
  | zero =>
      intro i m h
      simp [substringFindGo] at h
  | succ f ih =>
      intro i m h
      rw [substringFindGo] at h
      split at h
      · rename_i hlen
        split at h
        · rename_i heq
          obtain rfl : i = m := Option.some_inj.mp h
          exact ⟨le_refl _, hlen, heq⟩
        · have h2 := ih _ _ h
          exact ⟨by omega, h2.2⟩
      · exact absurd h (by simp)

theorem substringFind_some (data pat : List Byte) (pos m : Nat)
    (h : substringFind data pat pos = some m) :
    pos ≤ m ∧ m + pat.length ≤ data.length ∧ pySlice data m pat.length = pat :=
  substringFindGo_some data pat _ pos m h

/-- **C6** — Player rewrite postconditions: when the primary lobby-settings
record for player `id` matches at sentinel position `t` with name group of
length `n` equal to the (nonzero) length byte `L`, then with
`T = len("player {id+1}")` and `psa = t + 8 + T` (the profile position shifted
by `T - L`, computed by the source as `match_start + 2 + L + 4 - (L - T)`):
(a) the bytes at `match_start = t + 2` of the result are the 2-byte
little-endian `T` followed by `player {id+1}`; (b) the 4 profile-id bytes at
`psa` are zero; (d) the primary replacement changes the buffer length by
exactly `T - L`; and (c) when the attributes duplicate
(`pack("<H", L+1) + name`) is found at `m`, it is replaced by
`pack("<H", T+1) + player {id+1}` and the total length change is `2·(T - L)`. -/
theorem c6_player_rewrite (data : List Byte) (id offset t n : Nat)
    (hs : playerSearch data offset = some (t, n))
    (hL : (byteAt data (t + 2)).val = n) :
    pySlice (anonymizeNextPlayer id offset data).2 (t + 2)
        (2 + (targetNameBytes id).length) =
      le16Bytes (targetNameBytes id).length ++ targetNameBytes id ∧
    pySlice (anonymizeNextPlayer id offset data).2
        (t + 8 + (targetNameBytes id).length) 4 = [0, 0, 0, 0] ∧
    (playerAfterPrimary id data t).length + n =
      data.length + (targetNameBytes id).length ∧
    (∀ m, substringFind (playerAfterPrimary id data t)
        (le16Bytes (n + 1) ++ pySlice data (t + 4) n)
        (t + 8 + (targetNameBytes id).length + 4) = some m →
      pySlice (anonymizeNextPlayer id offset data).2 m
          (2 + (targetNameBytes id).length) =
        le16Bytes ((targetNameBytes id).length + 1) ++ targetNameBytes id ∧
      (anonymizeNextPlayer id offset data).2.length + 2 * n =
        data.length + 2 * (targetNameBytes id).length) := by
  obtain ⟨hnz, hbound, hsep⟩ := playerSearch_some data offset t n hs
  set target := targetNameBytes id with htarget
  set T := target.length with hT
  -- the buffer after the primary rewrite
  have hdata2 : playerAfterPrimary id data t =
      splice (splice data (t + 2) (t + 4 + n) (le16Bytes T ++ target))
        (t + 8 + T) (t + 8 + T + 4) [0, 0, 0, 0] := by
    unfold playerAfterPrimary
    rw [hL]
  set data1 := splice data (t + 2) (t + 4 + n) (le16Bytes T ++ target) with hdata1
  have hrepl_len : (le16Bytes T ++ target).length = 2 + T := by
    simp [le16Bytes]
    omega
  have hlen1 : data1.length = (t + 2) + (2 + T) + (data.length - (t + 4 + n)) := by
    rw [hdata1, splice_length data (t + 2) (t + 4 + n) _ (by omega), hrepl_len]
  have hlen1' : data1.length + n = data.length + T := by omega
  have hpsa_le : t + 8 + T ≤ data1.length := by omega
  have hlen2 : (playerAfterPrimary id data t).length = data1.length := by
    rw [hdata2, splice_length data1 _ _ _ hpsa_le]
    simp only [List.length_cons, List.length_nil]
    omega
  -- (a) on the intermediate buffers
  have ha1 : pySlice data1 (t + 2) (2 + T) = le16Bytes T ++ target := by
    have := pySlice_splice_at data (t + 2) (t + 4 + n) (le16Bytes T ++ target) (by omega)
    rwa [hrepl_len] at this
  have ha2 : pySlice (playerAfterPrimary id data t) (t + 2) (2 + T) =
      le16Bytes T ++ target := by
    rw [hdata2]
    rw [pySlice_splice_frame_left data1 _ _ _ (t + 2) (2 + T) (by omega) hpsa_le]
    exact ha1
  have hb2 : pySlice (playerAfterPrimary id data t) (t + 8 + T) 4 = [0, 0, 0, 0] := by
    rw [hdata2]
    have := pySlice_splice_at data1 (t + 8 + T) (t + 8 + T + 4) [0, 0, 0, 0] hpsa_le
    simpa using this
  -- unfold the full rewrite and case on the attributes search
  unfold anonymizeNextPlayer
  rw [hs]
  simp only [hL]
  cases hfind : substringFind (playerAfterPrimary id data t)
      (le16Bytes (n + 1) ++ pySlice data (t + 4) n) (t + 8 + T + 4) with
  | none =>
      refine ⟨ha2, hb2, by omega, ?_⟩
      intro m hm
      exact absurd hm (by simp)
  | some m =>
      obtain ⟨hmge, hmlen, hmslice⟩ := substringFind_some _ _ _ _ hfind
      have hpat_len : (le16Bytes (n + 1) ++ pySlice data (t + 4) n).length = 2 + n := by
        simp [le16Bytes, pySlice, List.length_take, List.length_drop]
        omega
      rw [hpat_len] at hmlen
      have hm_le : m ≤ (playerAfterPrimary id data t).length := by omega
      have hrepl2_len : (le16Bytes (T + 1) ++ target).length = 2 + T := by
        simp [le16Bytes]
        omega
      have ha3 : pySlice (splice (playerAfterPrimary id data t) m (m + n + 2)
          (le16Bytes (T + 1) ++ target)) (t + 2) (2 + T) = le16Bytes T ++ target := by
        rw [pySlice_splice_frame_left _ _ _ _ (t + 2) (2 + T) (by omega) hm_le]
        exact ha2
      have hb3 : pySlice (splice (playerAfterPrimary id data t) m (m + n + 2)
          (le16Bytes (T + 1) ++ target)) (t + 8 + T) 4 = [0, 0, 0, 0] := by
        rw [pySlice_splice_frame_left _ _ _ _ (t + 8 + T) 4 (by omega) hm_le]
        exact hb2
      have hc3 : pySlice (splice (playerAfterPrimary id data t) m (m + n + 2)
          (le16Bytes (T + 1) ++ target)) m (2 + T) =
          le16Bytes (T + 1) ++ target := by
        have := pySlice_splice_at (playerAfterPrimary id data t) m (m + n + 2)
          (le16Bytes (T + 1) ++ target) hm_le
        rwa [hrepl2_len] at this
      have hlen3 : (splice (playerAfterPrimary id data t) m (m + n + 2)
          (le16Bytes (T + 1) ++ target)).length + 2 * n = data.length + 2 * T := by
        rw [splice_length _ _ _ _ hm_le, hrepl2_len]
        omega
      refine ⟨ha3, hb3, by omega, ?_⟩
      intro m' hm'
      have hmm : m' = m := (Option.some_inj.mp hm').symm
      subst hmm
      exact ⟨hc3, hlen3⟩

/-- Fixture for the player rewrite: a primary record with name `abc` (length
byte 3) and profile id `09 09 09 09`, followed by filler and the attributes
duplicate `04 00 61 62 63`. -/
def playerFixture : List Byte :=
  [0x60, 0x0A, 3, 0] ++ [97, 98, 99] ++ [2, 0, 0, 0] ++ [9, 9, 9, 9] ++
  [1, 1, 1, 1, 1, 1, 1, 1] ++ [4, 0, 97, 98, 99] ++ [7, 7]

/-- Witness for C6 on `playerFixture` (`t = 0`, `n = L = 3`, `T = 8`,
attributes duplicate found at 28). -/
theorem c6_player_rewrite_witness :
    pySlice (anonymizeNextPlayer 0 0 playerFixture).2 2
        (2 + (targetNameBytes 0).length) =
      le16Bytes (targetNameBytes 0).length ++ targetNameBytes 0 ∧
    pySlice (anonymizeNextPlayer 0 0 playerFixture).2
        (0 + 8 + (targetNameBytes 0).length) 4 = [0, 0, 0, 0] ∧
    (playerAfterPrimary 0 playerFixture 0).length + 3 =
      playerFixture.length + (targetNameBytes 0).length ∧
    pySlice (anonymizeNextPlayer 0 0 playerFixture).2 28
        (2 + (targetNameBytes 0).length) =
      le16Bytes ((targetNameBytes 0).length + 1) ++ targetNameBytes 0 ∧
    (anonymizeNextPlayer 0 0 playerFixture).2.length + 2 * 3 =
      playerFixture.length + 2 * (targetNameBytes 0).length := by
  obtain ⟨ha, hb, hd, hc⟩ :=
    c6_player_rewrite playerFixture 0 0 0 3 (by decide) (by decide)
  obtain ⟨hc1, hc2⟩ := hc 28 (by decide)
  exact ⟨ha, hb, hd, hc1, hc2⟩

/-- Fixture for the attributes-miss case: the primary record matches (name
`abc`, profile `09 09 09 09`) but no attributes duplicate exists. -/
def playerNoAttrFixture : List Byte :=
  [0x60, 0x0A, 3, 0] ++ [97, 98, 99] ++ [2, 0, 0, 0] ++ [9, 9, 9, 9]

/-- **C5 counterexample** — the claim as stated is false: on a buffer whose
primary record matches but whose attributes duplicate is absent,
`_anonymize_next_player` returns -1 (not the primary record's end position
`profile_start_adjusted + 4 = 20`), and `_anonymize_players` raises instead of
continuing. -/
theorem c5_attr_miss_counterexample :
    playerSearch playerNoAttrFixture 0 = some (0, 3) ∧
    (anonymizeNextPlayer 0 0 playerNoAttrFixture).1 = -1 ∧
    (anonymizeNextPlayer 0 0 playerNoAttrFixture).1 ≠
      ((0 + 8 + (targetNameBytes 0).length + 4 : Nat) : Int) ∧
    anonymizePlayersGo 1 0 0 playerNoAttrFixture =
      .error "Could not anonymize player" :=
  ⟨rfl, rfl, by decide, rfl⟩

/-- **C5 amended** — Attributes-duplicate miss is fatal: when the primary
record matches but the attributes duplicate is not found after the profile id,
`_anonymize_next_player` logs a warning and returns -1 with only the primary
rewrite applied, and `_anonymize_players` then raises
`Could not anonymize player`, aborting the player pass (it does not continue
from the primary record's end position). -/
theorem c5_attr_miss_fatal (data : List Byte) (id offset t n count : Nat)
    (hs : playerSearch data offset = some (t, n))
    (hfind : substringFind (playerAfterPrimary id data t)
      (le16Bytes ((byteAt data (t + 2)).val + 1) ++ pySlice data (t + 4) n)
      (t + 8 + (targetNameBytes id).length + 4) = none) :
    anonymizeNextPlayer id offset data = (-1, playerAfterPrimary id data t) ∧
    anonymizePlayersGo (count + 1) id offset data =
      .error "Could not anonymize player" := by
  have h1 : anonymizeNextPlayer id offset data = (-1, playerAfterPrimary id data t) := by
    unfold anonymizeNextPlayer
    simp only [hs, hfind]
  refine ⟨h1, ?_⟩
  rw [anonymizePlayersGo, h1]
  norm_num

/-- Witness for the amended C5 on `playerNoAttrFixture`. -/
theorem c5_attr_miss_fatal_witness :
    anonymizeNextPlayer 0 0 playerNoAttrFixture =
      (-1, playerAfterPrimary 0 playerNoAttrFixture 0) ∧
    anonymizePlayersGo 1 0 0 playerNoAttrFixture =
      .error "Could not anonymize player" :=
  c5_attr_miss_fatal playerNoAttrFixture 0 0 0 3 0 (by decide) (by decide)

/-- A container whose stored `hlen` (99) disagrees with
`len(header) + 8 = 11`. -/
def hlenMismatchRec : RecFile := ⟨99, 7, [1, 2, 3], 5, [], []⟩

/-- **C8 counterexample** — `RecFile.write` does not recompute
`header_length`: it emits the stored `hlen` even when it differs from
`len(header) + 8`, so the emitted field (99) is not the emitted header block
length plus 8 (11). -/
theorem c8_write_no_recompute_counterexample :
    RecFile.write hlenMismatchRec =
      some [99, 0, 0, 0, 7, 0, 0, 0, 1, 2, 3, 5, 0, 0, 0] ∧
    le32At [99, 0, 0, 0, 7, 0, 0, 0, 1, 2, 3, 5, 0, 0, 0] 0 = 99 ∧
    hlenMismatchRec.header.length + 8 = 11 ∧ (99 : Nat) ≠ 11 := by
  refine ⟨by decide, by decide, by decide, by decide⟩

/-- **C8 amended** — the `hlen = len(header) + 8` invariant is established by
`parse` and re-established by `_anonymize_players` (which recompresses and
sets `hlen = len(header) + 8`); `write` itself emits the stored `hlen`
unchanged rather than recomputing it, so the emitted field is correct exactly
for containers produced by `parse` or by a successful player pass. -/
theorem c8_hlen_invariant :
    (∀ b r, RecFile.parse b = some r → r.hlen = r.header.length + 8) ∧
    (∀ r n r', RecFile.anonymizePlayers r n = .ok r' →
      r'.hlen = r'.header.length + 8) ∧
    (∀ r out, RecFile.write r = some out → pySlice out 0 4 = le32Bytes r.hlen) := by
  refine ⟨?_, ?_, ?_⟩
  · intro b r h
    obtain ⟨h8, hhlen, hcheck, hheader, rest2, hrest2, h4, hlog, hmeta, hops⟩ :=
      RecFile.parse_eq b r h
    rcases hheader with ⟨hl, hh⟩ | ⟨hl, hh⟩
    · rw [hrest2, if_pos hl] at h4
      simp at h4
    · rw [hrest2, if_neg (by omega)] at h4
      have hd4 : ((b.drop 8).drop (r.hlen - 8)).length =
          b.length - 8 - (r.hlen - 8) := by
        rw [List.length_drop, List.length_drop]
      rw [hd4] at h4
      rw [hh, List.length_take, List.length_drop]
      omega
  · intro r n r' h
    unfold RecFile.anonymizePlayers at h
    split at h
    · exact absurd h (by simp)
    · split at h
      · exact absurd h (by simp)
      · obtain rfl : _ = r' := Except.ok.inj h
        rfl
  · intro r out h
    unfold RecFile.write at h
    split at h
    · obtain rfl : _ = out := Option.some_inj.mp h
      unfold pySlice
      rw [List.drop_zero]
      have hassoc : le32Bytes r.hlen ++ le32Bytes r.check ++ r.header ++
          le32Bytes r.log_version ++ r.meta ++ r.operations =
          le32Bytes r.hlen ++ (le32Bytes r.check ++ r.header ++
            le32Bytes r.log_version ++ r.meta ++ r.operations) := by
        simp [List.append_assoc]
      rw [hassoc]
      rw [List.take_left' (by simp [le32Bytes])]
    · exact absurd h (by simp)

/-- Witness for the amended C8: the invariant after a concrete `parse`, after
a concrete (0-player) `_anonymize_players`, and the emitted `hlen` field of a
concrete `write`. -/
theorem c8_hlen_invariant_witness :
    (⟨9, 0, [5], 1, [], []⟩ : RecFile).hlen =
      (⟨9, 0, [5], 1, [], []⟩ : RecFile).header.length + 8 ∧
    (⟨14, 0, [1, 1, 0, 254, 255, 42], 0, [], []⟩ : RecFile).hlen =
      (⟨14, 0, [1, 1, 0, 254, 255, 42], 0, [], []⟩ : RecFile).header.length + 8 ∧
    pySlice [99, 0, 0, 0, 7, 0, 0, 0, 1, 2, 3, 5, 0, 0, 0] 0 4 =
      le32Bytes hlenMismatchRec.hlen := by
  obtain ⟨h1, h2, h3⟩ := c8_hlen_invariant
  refine ⟨?_, ?_, ?_⟩
  · exact h1 (le32Bytes 9 ++ le32Bytes 0 ++ [5] ++ le32Bytes 1) ⟨9, 0, [5], 1, [], []⟩
      (by decide)
  · exact h2 ⟨0, 0, deflateRaw [42], 0, [], []⟩ 0
      ⟨14, 0, [1, 1, 0, 254, 255, 42], 0, [], []⟩ (by rfl)
  · exact h3 hlenMismatchRec [99, 0, 0, 0, 7, 0, 0, 0, 1, 2, 3, 5, 0, 0, 0] (by decide)

/-! ## Rating locator/patcher (`RecFile._anonymize_elo`)

Pattern `\x06\x00\x00\x00.{1,255}\x02\x00\x00\x00\K[\x00-\x07]\x00\x00\x00`
searched with `pos = len(operations) - 255` and
`endpos = len(operations) - 8 - num_players * 12` (both clamped at 0).  The
gap `.{1,255}` is greedy, `.` does not match `\x0A`, and `\K` reports the
match start at the `[\x00-\x07]` byte. -/

/-- Greedy gap: try the candidate gap length `k` (the fuel argument), falling
back to `k - 1`; the caller starts at the largest gap the window allows. -/
def eloKGo (data : List Byte) (t : Nat) : Nat → Option Nat
  | 0 => none
  | k + 1 =>
    if (∀ b ∈ pySlice data (t + 4) (k + 1), b ≠ (10 : Byte)) ∧
        pySlice data (t + 4 + (k + 1)) 4 = sep4 ∧
        (byteAt data (t + 8 + (k + 1))).val ≤ 7 ∧
        pySlice data (t + 9 + (k + 1)) 3 = [0, 0, 0] then
      some (k + 1)
    else eloKGo data t k

/-- Try an elo-pattern match at attempt start `t`; returns the gap length. -/
def eloMatchAt (data : List Byte) (endposC t : Nat) : Option Nat :=
  if pySlice data t 4 = [6, 0, 0, 0] then
    eloKGo data t (min 255 (endposC - t - 12))
  else none

/-- Leftmost elo-pattern match; returns `match.start()`, i.e. the start of the
first 12-byte rating block. -/
def eloSearchGo (data : List Byte) (endposC : Nat) : Nat → Nat → Option Nat
  | 0, _ => none
  | fuel + 1, t =>
    match eloMatchAt data endposC t with
    | some k => some (t + 8 + k)
    | none => eloSearchGo data endposC fuel (t + 1)

/-- The elo-block search of `_anonymize_elo` (window `[len - 255, len - 8 -
num_players*12)`). -/
def eloSearch (ops : List Byte) (numPlayers : Nat) : Option Nat :=
  let pos := ops.length - 255
  let endposC := ops.length - 8 - numPlayers * 12
  eloSearchGo ops endposC (endposC - pos) pos

/-- One pass of the per-player loop: `unpack_from "<III"` at
`i * 12 + base_pos`, then `pack_into` the same `player_id` and `unknown` with
the fixed placeholder rating 3000. -/
def eloBlocksGo (base : Nat) : Nat → Nat → List Byte → List Byte
  | _, 0, data => data
  | i, count + 1, data =>
    let bp := i * 12 + base
    let d' := splice data bp (bp + 12)
      (le32Bytes (le32At data bp) ++ le32Bytes (le32At data (bp + 4)) ++ le32Bytes 3000)
    eloBlocksGo base (i + 1) count d'

/-- `RecFile._anonymize_elo`: raises when the signature is not found,
otherwise overwrites the rating field of each player's block. -/
def RecFile.anonymizeElo (r : RecFile) (numPlayers : Nat) : Except String RecFile :=
  match eloSearch r.operations numPlayers with
  | none => .error "Could not anonymize elo"
  | some base => .ok { r with operations := eloBlocksGo base 0 numPlayers r.operations }

theorem eloKGo_some (data : List Byte) (t : Nat) :
    ∀ kc k, eloKGo data t kc = some k → 1 ≤ k ∧ k ≤ kc := by
  intro kc
  induction kc with
  | zero =>
      intro k h
      simp [eloKGo] at h
  | succ kcp ih =>
      intro k h
      rw [eloKGo] at h
      split at h
      · obtain rfl : kcp + 1 = k := Option.some_inj.mp h
        omega
      · have h2 := ih k h
        omega

theorem eloMatchAt_some (data : List Byte) (endposC t k : Nat)
    (h : eloMatchAt data endposC t = some k) : 1 ≤ k ∧ t + 12 + k ≤ endposC := by
  unfold eloMatchAt at h
  split at h
  · have h2 := eloKGo_some data t _ _ h
    have hmin : min 255 (endposC - t - 12) ≤ endposC - t - 12 := Nat.min_le_right _ _
    omega
  · exact absurd h (by simp)

theorem eloSearchGo_some (data : List Byte) (endposC : Nat) :
    ∀ fuel t b, eloSearchGo data endposC fuel t = some b →
      ∃ t' k, eloMatchAt data endposC t' = some k ∧ b = t' + 8 + k := by
  intro fuel
  induction fuel with
  | zero =>
      intro t b h
      simp [eloSearchGo] at h
  | succ f ih =>
      intro t b h
      rw [eloSearchGo] at h
      split at h
      · rename_i k hk
        exact ⟨t, k, hk, (Option.some_inj.mp h).symm⟩
      · exact ih _ _ h

/-- A successful elo search leaves room for all `numPlayers` blocks. -/
theorem eloSearch_some (ops : List Byte) (numPlayers base : Nat)
    (h : eloSearch ops numPlayers = some base) :
    base + 12 * numPlayers + 12 ≤ ops.length := by
  unfold eloSearch at h
  obtain ⟨t', k, hm, rfl⟩ := eloSearchGo_some ops _ _ _ _ h
  have h2 := eloMatchAt_some ops _ t' k hm
  omega

theorem byteAt_eq_default (d : List Byte) (j : Nat) (h : d.length ≤ j) :
    byteAt d j = 0 := by
  unfold byteAt
  exact List.getD_eq_default _ _ h

theorem byteAt_take (d : List Byte) (a j : Nat) (hj : j < a) (ha : a ≤ d.length) :
    byteAt (d.take a) j = byteAt d j := by
  unfold byteAt
  have hjl : j < (d.take a).length := by simp [List.length_take]; omega
  rw [List.getD_eq_getElem _ _ hjl, List.getD_eq_getElem _ _ (by omega)]
  exact List.getElem_take d

/-- Indexing an equal-size splice: inside the range the replacement is read,
outside the original buffer. -/
theorem byteAt_splice (d : List Byte) (a b : Nat) (r : List Byte)
    (hb : b ≤ d.length) (heq : b = a + r.length) (j : Nat) :
    byteAt (splice d a b r) j =
      if a ≤ j ∧ j < a + r.length then byteAt r (j - a) else byteAt d j := by
  unfold splice
  have hta : (d.take a).length = a := by simp [List.length_take]; omega
  by_cases hj1 : j < a
  · rw [if_neg (by omega)]
    unfold byteAt
    rw [List.getD_append _ _ _ _ (by simp only [List.length_append, hta]; omega)]
    rw [List.getD_append _ _ _ _ (by omega)]
    exact byteAt_take d a j hj1 (by omega)
  · by_cases hj2 : j < a + r.length
    · rw [if_pos (by omega)]
      unfold byteAt
      rw [List.getD_append _ _ _ _ (by simp only [List.length_append, hta]; omega)]
      rw [List.getD_append_right _ _ _ _ (by omega)]
      rw [hta]
    · rw [if_neg (by omega)]
      unfold byteAt
      rw [List.getD_append_right _ _ _ _ (by simp only [List.length_append, hta]; omega)]
      simp only [List.length_append, hta]
      by_cases hj3 : j < d.length
      · rw [List.getD_eq_getElem _ _ (show j - (a + r.length) < (d.drop b).length from by
          rw [List.length_drop]; omega)]
        rw [List.getD_eq_getElem _ _ hj3]
        rw [List.getElem_drop d]
        have hidx : b + (j - (a + r.length)) = j := by omega
        simp only [hidx]
      · rw [List.getD_eq_default _ _ (by simp [List.length_drop]; omega)]
        rw [List.getD_eq_default _ _ (by omega)]
  
theorem pySlice4_eq (d : List Byte) (p : Nat) (h : p + 4 ≤ d.length) :
    pySlice d p 4 =
      [byteAt d p, byteAt d (p + 1), byteAt d (p + 2), byteAt d (p + 3)] := by
  have hb : ∀ q, q < 4 → byteAt d (p + q) = (d.drop p).getD q 0 := by
    intro q hq
    unfold byteAt
    rw [List.getD_eq_getElem _ _ (by omega), List.getD_eq_getElem _ _
      (by simp [List.length_drop]; omega)]
    exact (List.getElem_drop _).symm
  have hlen : 4 ≤ (d.drop p).length := by simp [List.length_drop]; omega
  unfold pySlice
  match hd : d.drop p with
  | [] => rw [hd] at hlen; simp at hlen
  | [a] => rw [hd] at hlen; simp at hlen
  | [a, b] => rw [hd] at hlen; simp at hlen
  | [a, b, c] => rw [hd] at hlen; simp at hlen
  | a :: b :: c :: e :: rest =>
    have h0 := hb 0 (by omega)
    have h1 := hb 1 (by omega)
    have h2 := hb 2 (by omega)
    have h3 := hb 3 (by omega)
    rw [hd] at h0 h1 h2 h3
    simp only [List.getD] at h0 h1 h2 h3
    rw [show p + 0 = p from by omega] at h0
    rw [h0, h1, h2, h3]
    simp

theorem eloBlocksGo_succ (base i count : Nat) (data : List Byte) :
    eloBlocksGo base i (count + 1) data =
      eloBlocksGo base (i + 1) count
        (splice data (i * 12 + base) (i * 12 + base + 12)
          (le32Bytes (le32At data (i * 12 + base)) ++
            le32Bytes (le32At data (i * 12 + base + 4)) ++ le32Bytes 3000)) := rfl

/-- Writing back the `player_id` and `unknown` words just read leaves them
bit-identical: the 12-byte `pack_into` is the same edit as overwriting only
the 4 rating bytes. -/
theorem eloStep_split (data : List Byte) (bp : Nat) (hbp : bp + 12 ≤ data.length) :
    splice data bp (bp + 12)
        (le32Bytes (le32At data bp) ++ le32Bytes (le32At data (bp + 4)) ++
          le32Bytes 3000) =
      splice data (bp + 8) (bp + 12) (le32Bytes 3000) := by
  unfold splice
  have hr1 : le32Bytes (le32At data bp) = pySlice data bp 4 :=
    le32Bytes_le32At data bp (by omega)
  have hr2 : le32Bytes (le32At data (bp + 4)) = pySlice data (bp + 4) 4 :=
    le32Bytes_le32At data (bp + 4) (by omega)
  have h1 : data.take (bp + 4) = data.take bp ++ pySlice data bp 4 := by
    have := List.take_add data bp 4
    simpa [pySlice] using this
  have h2 : data.take (bp + 8) = data.take (bp + 4) ++ pySlice data (bp + 4) 4 := by
    have := List.take_add data (bp + 4) 4
    rw [show bp + 4 + 4 = bp + 8 from by omega] at this
    simpa [pySlice] using this
  rw [hr1, hr2, h2, h1]
  simp [List.append_assoc]

theorem eloBlocksGo_spec (base : Nat) : ∀ count i data,
    (∀ m, i ≤ m → m < i + count → base + m * 12 + 12 ≤ data.length) →
    ((eloBlocksGo base i count data).length = data.length ∧
     (∀ j, (∀ m, i ≤ m → m < i + count →
        ¬(base + m * 12 + 8 ≤ j ∧ j < base + m * 12 + 12)) →
        byteAt (eloBlocksGo base i count data) j = byteAt data j) ∧
     (∀ m, i ≤ m → m < i + count →
        pySlice (eloBlocksGo base i count data) (base + m * 12 + 8) 4 =
          le32Bytes 3000)) := by
  intro count
  induction count with
  | zero =>
      intro i data hb
      refine ⟨rfl, fun j _ => rfl, fun m h1 h2 => ?_⟩
      omega
  | succ c ih =>
      intro i data hb
      have hbp : (i * 12 + base) + 12 ≤ data.length := by
        have := hb i (le_refl i) (by omega)
        omega
      rw [eloBlocksGo_succ, eloStep_split data (i * 12 + base) hbp]
      set d' := splice data (i * 12 + base + 8) (i * 12 + base + 12) (le32Bytes 3000)
        with hd'
      have hlen4 : (le32Bytes 3000).length = 4 := by simp [le32Bytes]
      have hlen' : d'.length = data.length := by
        rw [hd', splice_length data _ _ _ (by omega), hlen4]
        omega
      have hframe' : ∀ j, ¬(i * 12 + base + 8 ≤ j ∧ j < i * 12 + base + 12) →
          byteAt d' j = byteAt data j := by
        intro j hj
        rw [hd', byteAt_splice data _ _ _ (by omega) (by omega) j]
        rw [if_neg (by omega)]
      have hrt' : pySlice d' (i * 12 + base + 8) 4 = le32Bytes 3000 := by
        rw [hd']
        have := pySlice_splice_at data (i * 12 + base + 8) (i * 12 + base + 12)
          (le32Bytes 3000) (by omega)
        rwa [hlen4] at this
      have hbrec : ∀ m, i + 1 ≤ m → m < (i + 1) + c →
          base + m * 12 + 12 ≤ d'.length := by
        intro m h1 h2
        rw [hlen']
        exact hb m (by omega) (by omega)
      obtain ⟨rlen, rframe, rrt⟩ := ih (i + 1) d' hbrec
      refine ⟨by rw [rlen, hlen'], ?_, ?_⟩
      · intro j hj
        rw [rframe j (fun m h1 h2 => hj m (by omega) (by omega))]
        refine hframe' j ?_
        have := hj i (le_refl i) (by omega)
        omega
      · intro m h1 h2
        by_cases hmi : m = i
        · subst hmi
          have hcov : ∀ q, q < 4 → byteAt (eloBlocksGo base (m + 1) c d')
              (base + m * 12 + 8 + q) = byteAt d' (base + m * 12 + 8 + q) := by
            intro q hq
            exact rframe _ (fun m' hm1 hm2 => by omega)
          have hlen_rec : base + m * 12 + 8 + 4 ≤
              (eloBlocksGo base (m + 1) c d').length := by
            rw [rlen, hlen']
            omega
          rw [pySlice4_eq _ _ hlen_rec]
          have hd4 : base + m * 12 + 8 + 4 ≤ d'.length := by
            rw [hlen']
            omega
          have hexp := pySlice4_eq d' (base + m * 12 + 8) hd4
          have h0 := hcov 0 (by omega)
          have h1' := hcov 1 (by omega)
          have h2' := hcov 2 (by omega)
          have h3' := hcov 3 (by omega)
          rw [show base + m * 12 + 8 + 0 = base + m * 12 + 8 from by omega] at h0
          rw [h0, h1', h2', h3']
          rw [← hexp]
          rw [show m * 12 + base + 8 = base + m * 12 + 8 from by omega] at hrt'
          exact hrt'
        · exact rrt m (by omega) (by omega)

/-- **C7** — Rating patch frame: whenever the rating-block signature matches
(`eloSearch` returns `base`), the elo pass succeeds and overwrites exactly the
third u32 (rating) of each of the `num_players` consecutive 12-byte blocks
starting at `base` with the placeholder 3000; every other byte — including
each block's `player_id` and `unknown` words — is bit-identical to the input
and the buffer length is unchanged. -/
theorem c7_rating_patch_frame (r : RecFile) (n base : Nat)
    (hs : eloSearch r.operations n = some base) :
    RecFile.anonymizeElo r n =
      .ok { r with operations := eloBlocksGo base 0 n r.operations } ∧
    (eloBlocksGo base 0 n r.operations).length = r.operations.length ∧
    (∀ j, (∀ i, i < n → ¬(base + i * 12 + 8 ≤ j ∧ j < base + i * 12 + 12)) →
      byteAt (eloBlocksGo base 0 n r.operations) j = byteAt r.operations j) ∧
    (∀ i, i < n →
      pySlice (eloBlocksGo base 0 n r.operations) (base + i * 12 + 8) 4 =
        le32Bytes 3000) := by
  have hbound := eloSearch_some r.operations n base hs
  obtain ⟨hlen, hframe, hrt⟩ := eloBlocksGo_spec base n 0 r.operations
    (fun m h1 h2 => by
      have h12 : m * 12 + 12 ≤ n * 12 := by
        have : m + 1 ≤ n := by omega
        calc m * 12 + 12 = (m + 1) * 12 := by ring
          _ ≤ n * 12 := Nat.mul_le_mul_right _ this
      omega)
  refine ⟨?_, hlen, ?_, ?_⟩
  · unfold RecFile.anonymizeElo
    rw [hs]
  · intro j hj
    exact hframe j (fun m _ h2 => hj m (by omega))
  · intro i hi
    exact hrt i (by omega) (by omega)

/-- Fixture for the rating patch: post-game tag `06 00 00 00`, a 1-byte gap,
the player-count literal `02 00 00 00`, two 12-byte rating blocks, and a
12-byte tail within the search window. -/
def eloFixture : List Byte :=
  [6, 0, 0, 0] ++ [1] ++ [2, 0, 0, 0] ++
  [1, 0, 0, 0, 0x11, 0x22, 0x33, 0x44, 0xAA, 0, 0, 1] ++
  [2, 0, 0, 0, 0x55, 0x66, 0x77, 0x88, 0x0F, 0x27, 0, 0] ++
  List.replicate 12 0

/-- Witness for C7 on `eloFixture` (2 players, match at base 9): the pass
succeeds, length is unchanged, a `player_id`/`unknown` byte (index 12) is
untouched, and both rating words become 3000. -/
theorem c7_rating_patch_frame_witness :
    RecFile.anonymizeElo ⟨0, 0, [], 0, [], eloFixture⟩ 2 =
      .ok ⟨0, 0, [], 0, [], eloBlocksGo 9 0 2 eloFixture⟩ ∧
    (eloBlocksGo 9 0 2 eloFixture).length = eloFixture.length ∧
    byteAt (eloBlocksGo 9 0 2 eloFixture) 12 = byteAt eloFixture 12 ∧
    pySlice (eloBlocksGo 9 0 2 eloFixture) (9 + 0 * 12 + 8) 4 = le32Bytes 3000 ∧
    pySlice (eloBlocksGo 9 0 2 eloFixture) (9 + 1 * 12 + 8) 4 = le32Bytes 3000 := by
  obtain ⟨h1, h2, h3, h4⟩ :=
    c7_rating_patch_frame ⟨0, 0, [], 0, [], eloFixture⟩ 2 9 (by decide)
  exact ⟨h1, h2, h3 12 (fun i hi => by omega), h4 0 (by omega), h4 1 (by omega)⟩

/-! ## UTF-8 codec (`bytes.decode("utf-8")` / `str.encode()`, strict mode)

Chat payload bytes are decoded to a list of codepoints, edited as text, and
re-encoded.  The decoder is CPython's strict UTF-8: it rejects stray
continuation bytes, overlong forms, surrogates and values above U+10FFFF. -/

/-- Encode one codepoint (for decoded values this is standard UTF-8). -/
def utf8EncodeChar (c : Nat) : List Byte :=
  if c < 0x80 then [⟨c % 256, Nat.mod_lt _ (by omega)⟩]
  else if c < 0x800 then
    [⟨(0xC0 + c / 64) % 256, Nat.mod_lt _ (by omega)⟩,
     ⟨(0x80 + c % 64) % 256, Nat.mod_lt _ (by omega)⟩]
  else if c < 0x10000 then
    [⟨(0xE0 + c / 4096) % 256, Nat.mod_lt _ (by omega)⟩,
     ⟨(0x80 + c / 64 % 64) % 256, Nat.mod_lt _ (by omega)⟩,
     ⟨(0x80 + c % 64) % 256, Nat.mod_lt _ (by omega)⟩]
  else
    [⟨(0xF0 + c / 262144) % 256, Nat.mod_lt _ (by omega)⟩,
     ⟨(0x80 + c / 4096 % 64) % 256, Nat.mod_lt _ (by omega)⟩,
     ⟨(0x80 + c / 64 % 64) % 256, Nat.mod_lt _ (by omega)⟩,
     ⟨(0x80 + c % 64) % 256, Nat.mod_lt _ (by omega)⟩]

def utf8Encode : List Nat → List Byte
  | [] => []
  | c :: r => utf8EncodeChar c ++ utf8Encode r

/-- Strict UTF-8 decoder (fuelled; one unit of fuel per decoded character). -/
def utf8DecodeGo : Nat → List Byte → Option (List Nat)
  | _, [] => some []
  | 0, _ :: _ => none
  | fuel + 1, b :: rest =>
    if b.val < 0x80 then
      (b.val :: ·) <$> utf8DecodeGo fuel rest
    else if b.val < 0xC2 then none
    else if b.val < 0xE0 then
      match rest with
      | c1 :: r =>
        if 0x80 ≤ c1.val ∧ c1.val < 0xC0 then
          (((b.val - 0xC0) * 64 + (c1.val - 0x80)) :: ·) <$> utf8DecodeGo fuel r
        else none
      | [] => none
    else if b.val < 0xF0 then
      match rest with
      | c1 :: c2 :: r =>
        if (0x80 ≤ c1.val ∧ c1.val < 0xC0) ∧ (0x80 ≤ c2.val ∧ c2.val < 0xC0) ∧
            (0xA0 ≤ c1.val ∨ 0xE1 ≤ b.val) ∧ (b.val ≠ 0xED ∨ c1.val < 0xA0) then
          (((b.val - 0xE0) * 4096 + (c1.val - 0x80) * 64 + (c2.val - 0x80)) :: ·) <$>
            utf8DecodeGo fuel r
        else none
      | _ => none
    else if b.val < 0xF5 then
      match rest with
      | c1 :: c2 :: c3 :: r =>
        if (0x80 ≤ c1.val ∧ c1.val < 0xC0) ∧ (0x80 ≤ c2.val ∧ c2.val < 0xC0) ∧
            (0x80 ≤ c3.val ∧ c3.val < 0xC0) ∧
            (0x90 ≤ c1.val ∨ 0xF1 ≤ b.val) ∧ (b.val ≠ 0xF4 ∨ c1.val < 0x90) then
          (((b.val - 0xF0) * 262144 + (c1.val - 0x80) * 4096 +
            (c2.val - 0x80) * 64 + (c3.val - 0x80)) :: ·) <$> utf8DecodeGo fuel r
        else none
      | _ => none
    else none

def utf8Decode (bs : List Byte) : Option (List Nat) := utf8DecodeGo bs.length bs

theorem utf8Encode_append (a b : List Nat) :
    utf8Encode (a ++ b) = utf8Encode a ++ utf8Encode b := by
  induction a with
  | nil => simp [utf8Encode]
  | cons c r ih =>
      show utf8EncodeChar c ++ utf8Encode (r ++ b) =
        utf8EncodeChar c ++ utf8Encode r ++ utf8Encode b
      rw [ih, List.append_assoc]

theorem utf8EncodeChar_length_pos (c : Nat) : 1 ≤ (utf8EncodeChar c).length := by
  unfold utf8EncodeChar
  split
  · simp
  · split
    · simp
    · split
      · simp
      · simp

theorem length_le_utf8Encode (s : List Nat) : s.length ≤ (utf8Encode s).length := by
  induction s with
  | nil => simp [utf8Encode]
  | cons c r ih =>
      have := utf8EncodeChar_length_pos c
      simp only [utf8Encode, List.length_append, List.length_cons]
      omega

theorem utf8DecodeGo_cons (f : Nat) (b : Byte) (rest : List Byte) :
    utf8DecodeGo (f + 1) (b :: rest) =
    (if b.val < 0x80 then
      (b.val :: ·) <$> utf8DecodeGo f rest
    else if b.val < 0xC2 then none
    else if b.val < 0xE0 then
      match rest with
      | c1 :: r =>
        if 0x80 ≤ c1.val ∧ c1.val < 0xC0 then
          (((b.val - 0xC0) * 64 + (c1.val - 0x80)) :: ·) <$> utf8DecodeGo f r
        else none
      | [] => none
    else if b.val < 0xF0 then
      match rest with
      | c1 :: c2 :: r =>
        if (0x80 ≤ c1.val ∧ c1.val < 0xC0) ∧ (0x80 ≤ c2.val ∧ c2.val < 0xC0) ∧
            (0xA0 ≤ c1.val ∨ 0xE1 ≤ b.val) ∧ (b.val ≠ 0xED ∨ c1.val < 0xA0) then
          (((b.val - 0xE0) * 4096 + (c1.val - 0x80) * 64 + (c2.val - 0x80)) :: ·) <$>
            utf8DecodeGo f r
        else none
      | _ => none
    else if b.val < 0xF5 then
      match rest with
      | c1 :: c2 :: c3 :: r =>
        if (0x80 ≤ c1.val ∧ c1.val < 0xC0) ∧ (0x80 ≤ c2.val ∧ c2.val < 0xC0) ∧
            (0x80 ≤ c3.val ∧ c3.val < 0xC0) ∧
            (0x90 ≤ c1.val ∨ 0xF1 ≤ b.val) ∧ (b.val ≠ 0xF4 ∨ c1.val < 0x90) then
          (((b.val - 0xF0) * 262144 + (c1.val - 0x80) * 4096 +
            (c2.val - 0x80) * 64 + (c3.val - 0x80)) :: ·) <$> utf8DecodeGo f r
        else none
      | _ => none
    else none) := rfl

/-- The strict decoder is a right inverse of the encoder: decoded input is
reproduced byte-for-byte by re-encoding (no overlong forms are accepted). -/
theorem utf8Encode_decode : ∀ fuel bs s, utf8DecodeGo fuel bs = some s →
    utf8Encode s = bs := by
  intro fuel
  induction fuel with
  | zero =>
      intro bs s h
      match bs with
      | [] =>
          obtain rfl : [] = s := Option.some_inj.mp h
          rfl
      | b :: rest => exact absurd h (by simp [utf8DecodeGo])
  | succ f ih =>
      intro bs s h
      match bs with
      | [] =>
          obtain rfl : [] = s := Option.some_inj.mp h
          rfl
      | b :: rest =>
          rw [utf8DecodeGo_cons] at h
          have hb := b.isLt
          split at h
          · -- 1-byte
            rename_i h1
            match hrec : utf8DecodeGo f rest with
            | none => rw [hrec] at h; simp at h
            | some s' =>
                rw [hrec] at h
                obtain rfl : b.val :: s' = s := Option.some_inj.mp h
                rw [utf8Encode, ih rest s' hrec]
                unfold utf8EncodeChar
                rw [if_pos h1]
                simp only [List.cons_append, List.nil_append, List.cons.injEq, and_true]
                exact Fin.ext (by simp only [Fin.val_mk]; omega)
          · split at h
            · exact absurd h (by simp)
            · split at h
              · -- 2-byte
                rename_i h1 h2 h3
                split at h
                · rename_i c1 r
                  split at h
                  · rename_i hc1
                    match hrec : utf8DecodeGo f r with
                    | none => rw [hrec] at h; simp at h
                    | some s' =>
                        rw [hrec] at h
                        obtain rfl := Option.some_inj.mp h
                        rw [utf8Encode, ih r s' hrec]
                        unfold utf8EncodeChar
                        have hc := c1.isLt
                        rw [if_neg (by omega), if_pos (by omega)]
                        simp only [List.cons_append, List.nil_append, List.cons.injEq]
                        refine ⟨Fin.ext ?_, Fin.ext ?_, trivial⟩ <;> simp <;> omega
                  · exact absurd h (by simp)
                · exact absurd h (by simp)
              · split at h
                · -- 3-byte
                  rename_i h1 h2 h3 h4
                  split at h
                  · rename_i c1 c2 r
                    split at h
                    · rename_i hc
                      match hrec : utf8DecodeGo f r with
                      | none => rw [hrec] at h; simp at h
                      | some s' =>
                          rw [hrec] at h
                          obtain rfl := Option.some_inj.mp h
                          rw [utf8Encode, ih r s' hrec]
                          unfold utf8EncodeChar
                          have hd1 := c1.isLt
                          have hd2 := c2.isLt
                          rw [if_neg (by omega), if_neg (by omega), if_pos (by omega)]
                          simp only [List.cons_append, List.nil_append, List.cons.injEq]
                          refine ⟨Fin.ext ?_, Fin.ext ?_, Fin.ext ?_, trivial⟩
                            <;> simp <;> omega
                    · exact absurd h (by simp)
                  · exact absurd h (by simp)
                · split at h
                  · -- 4-byte
                    rename_i h1 h2 h3 h4 h5
                    split at h
                    · rename_i c1 c2 c3 r
                      split at h
                      · rename_i hc
                        match hrec : utf8DecodeGo f r with
                        | none => rw [hrec] at h; simp at h
                        | some s' =>
                            rw [hrec] at h
                            obtain rfl := Option.some_inj.mp h
                            rw [utf8Encode, ih r s' hrec]
                            unfold utf8EncodeChar
                            have hd1 := c1.isLt
                            have hd2 := c2.isLt
                            have hd3 := c3.isLt
                            rw [if_neg (by omega), if_neg (by omega), if_neg (by omega)]
                            simp only [List.cons_append, List.nil_append, List.cons.injEq]
                            refine ⟨Fin.ext ?_, Fin.ext ?_, Fin.ext ?_, Fin.ext ?_, trivial⟩
                              <;> simp <;> omega
                      · exact absurd h (by simp)
                    · exact absurd h (by simp)
                  · exact absurd h (by simp)

/-! ## Chat text edit (`_anonymize_next_chat_message`)

The decoded chat string (a list of codepoints) is searched for
`"player"\:(?P<id>\d)` to extract the speaking player's id, and
`"messageAGP":"@#\d\d(?:\  <platform_icon_.+>  )?\K(?P<name>.+)\: ` is
substituted (all occurrences) by `player {id}: `.  In the text patterns `.`
does not match `\n` (codepoint 10); `.+` is greedy; the optional icon group is
tried first; `\K` restricts the replaced span to `name + ": "`. -/

/-- Codepoint at index `i`. -/
def charAt (s : List Nat) (i : Nat) : Nat := s.getD i 0

/-- A decimal digit, as in the regex class `\d`. -/
def isDigit (c : Nat) : Prop := 48 ≤ c ∧ c ≤ 57

instance (c : Nat) : Decidable (isDigit c) := by
  unfold isDigit
  infer_instance

/-- The literal `"messageAGP":"@#`. -/
def agpLit : List Nat :=
  [34, 109, 101, 115, 115, 97, 103, 101, 65, 71, 80, 34, 58, 34, 64, 35]

/-- The literal two-spaces + `<platform_icon_` prefix of the optional group. -/
def iconLit : List Nat :=
  [32, 32, 60, 112, 108, 97, 116, 102, 111, 114, 109, 95, 105, 99, 111, 110, 95]

/-- Greedy `(?P<name>.+)\: ` at position `q`: the largest name length `m ≥ 1`
(candidate = the fuel argument) whose characters avoid `\n` and are followed by
`": "`. -/
def agpNameGo (s : List Nat) (q : Nat) : Nat → Option Nat
  | 0 => none
  | m + 1 =>
    if (∀ c ∈ pySlice s q (m + 1), c ≠ 10) ∧
        charAt s (q + (m + 1)) = 58 ∧ charAt s (q + (m + 1) + 1) = 32 ∧
        q + (m + 1) + 2 ≤ s.length then some (m + 1)
    else agpNameGo s q m

def agpName (s : List Nat) (q : Nat) : Option Nat := agpNameGo s q (s.length - q)

/-- Greedy inner `.+` of the icon group starting at `j1`, followed by `>  `,
then the name part; returns the replaced span `(kStart, kEnd)`. -/
def agpIconGo (s : List Nat) (j1 : Nat) : Nat → Option (Nat × Nat)
  | 0 => none
  | x + 1 =>
    if (∀ c ∈ pySlice s j1 (x + 1), c ≠ 10) ∧
        charAt s (j1 + (x + 1)) = 62 ∧ charAt s (j1 + (x + 1) + 1) = 32 ∧
        charAt s (j1 + (x + 1) + 2) = 32 ∧ j1 + (x + 1) + 3 ≤ s.length then
      match agpName s (j1 + (x + 1) + 3) with
      | some m => some (j1 + (x + 1) + 3, j1 + (x + 1) + 3 + m + 2)
      | none => agpIconGo s j1 x
    else agpIconGo s j1 x

/-- `messageAGP` pattern match attempt at `i`; returns the span `[kStart,
kEnd)` that the substitution replaces (`name + ": "`, after `\K`). -/
def agpMatchAt (s : List Nat) (i : Nat) : Option (Nat × Nat) :=
  if pySlice s i 16 = agpLit ∧ isDigit (charAt s (i + 16)) ∧
      isDigit (charAt s (i + 17)) then
    if pySlice s (i + 18) 17 = iconLit then
      match agpIconGo s (i + 18 + 17) (s.length - (i + 18 + 17)) with
      | some ke => some ke
      | none =>
        match agpName s (i + 18) with
        | some m => some (i + 18, i + 18 + m + 2)
        | none => none
    else
      match agpName s (i + 18) with
      | some m => some (i + 18, i + 18 + m + 2)
      | none => none
  else none

/-- Leftmost `messageAGP` match from position `i`. -/
def agpSearchGo (s : List Nat) : Nat → Nat → Option (Nat × Nat)
  | 0, _ => none
  | fuel + 1, i =>
    match agpMatchAt s i with
    | some ke => some ke
    | none => agpSearchGo s fuel (i + 1)

/-- `f"player {player_id}: "` as codepoints. -/
def agpRepl (playerId : Nat) : List Nat :=
  [112, 108, 97, 121, 101, 114, 32] ++ (natDigits playerId).map Fin.val ++ [58, 32]

/-- `regex.sub`: replace every non-overlapping `messageAGP` match, scanning
on after each replaced span. -/
def agpSub (playerId : Nat) : Nat → List Nat → List Nat
  | 0, s => s
  | fuel + 1, s =>
    match agpSearchGo s (s.length + 1) 0 with
    | none => s
    | some (kStart, kEnd) =>
        s.take kStart ++ agpRepl playerId ++ agpSub playerId fuel (s.drop kEnd)

theorem agpSub_succ (playerId fuel : Nat) (s : List Nat) :
    agpSub playerId (fuel + 1) s =
      match agpSearchGo s (s.length + 1) 0 with
      | none => s
      | some (kStart, kEnd) =>
          s.take kStart ++ agpRepl playerId ++ agpSub playerId fuel (s.drop kEnd) := rfl

theorem agpNameGo_some (s : List Nat) (q : Nat) :
    ∀ cand m, agpNameGo s q cand = some m → 1 ≤ m ∧ q + m + 2 ≤ s.length := by
  intro cand
  induction cand with
  | zero =>
      intro m h
      simp [agpNameGo] at h
  | succ c ih =>
      intro m h
      rw [agpNameGo] at h
      split at h
      · rename_i hcond
        obtain rfl : c + 1 = m := Option.some_inj.mp h
        exact ⟨by omega, hcond.2.2.2⟩
      · exact ih m h

theorem agpIconGo_some (s : List Nat) (j1 : Nat) :
    ∀ cand ks ke, agpIconGo s j1 cand = some (ks, ke) →
      ks ≤ ke ∧ ke ≤ s.length := by
  intro cand
  induction cand with
  | zero =>
      intro ks ke h
      simp [agpIconGo] at h
  | succ x ih =>
      intro ks ke h
      rw [agpIconGo] at h
      split at h
      · rename_i hcond
        split at h
        · rename_i m hm
          have h2 := agpNameGo_some s _ _ _ hm
          have heq : (j1 + (x + 1) + 3, j1 + (x + 1) + 3 + m + 2) = (ks, ke) :=
            Option.some_inj.mp h
          obtain ⟨rfl, rfl⟩ := Prod.mk.inj heq
          exact ⟨by omega, by omega⟩
        · exact ih ks ke h
      · exact ih ks ke h

theorem agpMatchAt_some (s : List Nat) (i ks ke : Nat)
    (h : agpMatchAt s i = some (ks, ke)) : ks ≤ ke ∧ ke ≤ s.length := by
  unfold agpMatchAt at h
  split at h
  · split at h
    · split at h
      · rename_i p hp
        obtain rfl : p = (ks, ke) := Option.some_inj.mp h
        exact agpIconGo_some s _ _ _ _ hp
      · split at h
        · rename_i m hm
          have h2 := agpNameGo_some s _ _ _ hm
          have : (i + 18, i + 18 + m + 2) = (ks, ke) := Option.some_inj.mp h
          obtain ⟨rfl, rfl⟩ := Prod.mk.inj this
          omega
        · exact absurd h (by simp)
    · split at h
      · rename_i m hm
        have h2 := agpNameGo_some s _ _ _ hm
        have : (i + 18, i + 18 + m + 2) = (ks, ke) := Option.some_inj.mp h
        obtain ⟨rfl, rfl⟩ := Prod.mk.inj this
        omega
      · exact absurd h (by simp)
  · exact absurd h (by simp)

theorem agpSearchGo_some (s : List Nat) :
    ∀ fuel i ks ke, agpSearchGo s fuel i = some (ks, ke) →
      ks ≤ ke ∧ ke ≤ s.length := by
  intro fuel
  induction fuel with
  | zero =>
      intro i ks ke h
      simp [agpSearchGo] at h
  | succ f ih =>
      intro i ks ke h
      rw [agpSearchGo] at h
      split at h
      · rename_i p hp
        obtain rfl : p = (ks, ke) := Option.some_inj.mp h
        exact agpMatchAt_some s i ks ke hp
      · exact ih _ _ _ h

theorem utf8Encode_ascii (l : List Nat) (h : ∀ c ∈ l, c < 128) :
    (utf8Encode l).length = l.length := by
  induction l with
  | nil => simp [utf8Encode]
  | cons c r ih =>
      have hc : c < 128 := h c (by simp)
      have hr := ih (fun x hx => h x (by simp [hx]))
      simp only [utf8Encode, List.length_append, List.length_cons, hr]
      unfold utf8EncodeChar
      rw [if_pos (by omega)]
      simp
      omega

theorem natDigitsGo_lt : ∀ fuel n : Nat, ∀ b ∈ natDigitsGo fuel n, b.val < 128 := by
  intro fuel
  induction fuel with
  | zero =>
      intro n b hb
      simp [natDigitsGo] at hb
      simp [hb]
      omega
  | succ f ih =>
      intro n b hb
      rw [natDigitsGo] at hb
      split at hb
      · simp at hb
        simp [hb]
        omega
      · rw [List.mem_append] at hb
        rcases hb with hb | hb
        · exact ih _ b hb
        · simp at hb
          simp [hb]
          omega

theorem agpRepl_ascii (pid : Nat) : ∀ c ∈ agpRepl pid, c < 128 := by
  intro c hc
  unfold agpRepl at hc
  rw [List.mem_append, List.mem_append] at hc
  rcases hc with (hc | hc) | hc
  · fin_cases hc <;> omega
  · rw [List.mem_map] at hc
    obtain ⟨b, hb, rfl⟩ := hc
    exact natDigitsGo_lt _ _ b hb
  · fin_cases hc <;> omega

/-- The substitution never worsens the byte-minus-character excess: every
replaced span is swapped for a pure-ASCII string. -/
theorem agpSub_ineq (pid : Nat) : ∀ fuel s,
    (utf8Encode (agpSub pid fuel s)).length + s.length ≤
      (utf8Encode s).length + (agpSub pid fuel s).length := by
  intro fuel
  induction fuel with
  | zero =>
      intro s
      simp [agpSub]
  | succ f ih =>
      intro s
      cases hsr : agpSearchGo s (s.length + 1) 0 with
      | none =>
          have hsub : agpSub pid (f + 1) s = s := by rw [agpSub_succ, hsr]
          rw [hsub]
      | some p =>
          obtain ⟨ks, ke⟩ := p
          obtain ⟨hks, hke⟩ := agpSearchGo_some s _ _ _ _ hsr
          have hsub : agpSub pid (f + 1) s =
              s.take ks ++ agpRepl pid ++ agpSub pid f (s.drop ke) := by
            rw [agpSub_succ, hsr]
          rw [hsub]
          have h3 : (s.drop ks).drop (ke - ks) = s.drop ke := by
            rw [List.drop_drop]
            congr 1
            omega
          have hsplit : s = s.take ks ++ (s.drop ks).take (ke - ks) ++ s.drop ke := by
            calc s = s.take ks ++ s.drop ks := (List.take_append_drop _ _).symm
              _ = s.take ks ++ ((s.drop ks).take (ke - ks) ++ s.drop ke) := by
                  rw [← h3, List.take_append_drop (ke - ks) (s.drop ks),
                    List.take_append_drop]
              _ = s.take ks ++ (s.drop ks).take (ke - ks) ++ s.drop ke := by
                  rw [List.append_assoc]
          have hEs : (utf8Encode s).length =
              (utf8Encode (s.take ks)).length +
              (utf8Encode ((s.drop ks).take (ke - ks))).length +
              (utf8Encode (s.drop ke)).length := by
            conv_lhs => rw [hsplit]
            rw [utf8Encode_append, utf8Encode_append]
            simp [List.length_append]
            omega
          have hCs : s.length = (s.take ks).length +
              ((s.drop ks).take (ke - ks)).length + (s.drop ke).length := by
            conv_lhs => rw [hsplit]
            simp [List.length_append]
            omega
          have hEsub : (utf8Encode (s.take ks ++ agpRepl pid ++
              agpSub pid f (s.drop ke))).length =
              (utf8Encode (s.take ks)).length + (utf8Encode (agpRepl pid)).length +
              (utf8Encode (agpSub pid f (s.drop ke))).length := by
            rw [utf8Encode_append, utf8Encode_append]
            simp [List.length_append]
            omega
          have hrepl : (utf8Encode (agpRepl pid)).length = (agpRepl pid).length :=
            utf8Encode_ascii _ (agpRepl_ascii pid)
          have hmid := length_le_utf8Encode ((s.drop ks).take (ke - ks))
          have hih := ih (s.drop ke)
          simp only [List.length_append]
          omega

/-- The chat-operation sentinel `\x04\x00\x00\x00\xFF\xFF\xFF\xFF`. -/
def chatSentinel : List Byte := [4, 0, 0, 0, 0xFF, 0xFF, 0xFF, 0xFF]

/-- Leftmost match of
`\x04\x00\x00\x00\xFF\xFF\xFF\xFF\K(?P<length>.{2})\x00\x00` at or after
`pos`; returns the sentinel position (the reported `match.span()` is then
`(s + 8, s + 12)` because of `\K`). -/
def chatSearchGo (data : List Byte) : Nat → Nat → Option Nat
  | 0, _ => none
  | fuel + 1, s =>
    if s + 12 ≤ data.length ∧ pySlice data s 8 = chatSentinel ∧
        byteAt data (s + 8) ≠ (10 : Byte) ∧ byteAt data (s + 9) ≠ (10 : Byte) ∧
        byteAt data (s + 10) = (0 : Byte) ∧ byteAt data (s + 11) = (0 : Byte) then
      some s
    else chatSearchGo data fuel (s + 1)

def chatSearch (data : List Byte) (pos : Nat) : Option Nat :=
  chatSearchGo data (data.length + 1 - pos) pos

/-- The literal `"player":` of the player-id pattern. -/
def playerIdLit : List Nat := [34, 112, 108, 97, 121, 101, 114, 34, 58]

/-- `regex.search("\"player\"\:(?P<id>\d)", chat_string)`: the digit after
the leftmost occurrence of `"player":`. -/
def pidSearchGo (s : List Nat) : Nat → Nat → Option Nat
  | 0, _ => none
  | fuel + 1, i =>
    if pySlice s i 9 = playerIdLit ∧ isDigit (charAt s (i + 9)) then
      some (charAt s (i + 9) - 48)
    else pidSearchGo s fuel (i + 1)

def pidSearch (s : List Nat) : Option Nat := pidSearchGo s (s.length + 1) 0

inductive ChatErr where
  | decodeError
  | playerIdMissing
  deriving DecidableEq, Repr

/-- `RecFile._anonymize_next_chat_message(pos, data)`: find the next chat
operation, decode its payload, extract the player id, substitute the
`messageAGP` display name, and splice the rewritten record (its new length
field is `pack("<I", len(changed_chat_string))`, a character count) back over
`data[match_start : match_end + length]`.  `.ok none` models the -1 return;
exceptions are `.error`. -/
def anonymizeNextChatMessage (pos : Nat) (data : List Byte) :
    Except ChatErr (Option (Nat × List Byte)) :=
  match chatSearch data pos with
  | none => .ok none
  | some s =>
    let match_start := s + 8
    let match_end := s + 12
    let length := le16At data match_start
    let chatBytes := pySlice data match_end length
    match utf8Decode chatBytes with
    | none => .error .decodeError
    | some cs =>
      match pidSearch cs with
      | none => .error .playerIdMissing
      | some pid =>
        let changed := agpSub pid (cs.length + 1) cs
        let data' := splice data match_start (match_end + length)
          (le32Bytes changed.length ++ utf8Encode changed)
        .ok (some (match_start + changed.length, data'))

/-- The `while True` loop of `_anonymize_chat`, with explicit fuel; `none`
means the fuel ran out (which the termination theorem rules out for fuel
`data.length + 1`). -/
def anonymizeChatGo : Nat → Nat → List Byte → Option (Except ChatErr (List Byte))
  | 0, _, _ => none
  | fuel + 1, pos, data =>
    match anonymizeNextChatMessage pos data with
    | .error e => some (.error e)
    | .ok none => some (.ok data)
    | .ok (some (pos', data')) => anonymizeChatGo fuel pos' data'

/-- `RecFile._anonymize_chat` (fuel `operations.length + 1` always suffices by
the termination theorem; the fuel-exhausted arm is unreachable). -/
def RecFile.anonymizeChat (r : RecFile) : Except ChatErr RecFile :=
  match anonymizeChatGo (r.operations.length + 1) 0 r.operations with
  | some (.ok d) => .ok { r with operations := d }
  | some (.error e) => .error e
  | none => .error .decodeError

theorem chatSearchGo_some (data : List Byte) :
    ∀ fuel p s, chatSearchGo data fuel p = some s → p ≤ s ∧ s + 12 ≤ data.length := by
  intro fuel
  induction fuel with
  | zero =>
      intro p s h
      simp [chatSearchGo] at h
  | succ f ih =>
      intro p s h
      rw [chatSearchGo] at h
      split at h
      · rename_i hcond
        obtain rfl : p = s := Option.some_inj.mp h
        exact ⟨le_refl _, hcond.1⟩
      · have h2 := ih _ _ h
        exact ⟨by omega, h2.2⟩

theorem chatSearch_some (data : List Byte) (pos s : Nat)
    (h : chatSearch data pos = some s) : pos ≤ s ∧ s + 12 ≤ data.length :=
  chatSearchGo_some data _ pos s h

/-- One chat step: it raises, reports no match, or advances by at least 8
bytes while strictly shrinking the distance from the scan position to the end
of the (possibly resized) buffer. -/
theorem chat_step_spec (pos : Nat) (data : List Byte) :
    (∃ e, anonymizeNextChatMessage pos data = .error e) ∨
    anonymizeNextChatMessage pos data = .ok none ∨
    (∃ pos' data', anonymizeNextChatMessage pos data = .ok (some (pos', data')) ∧
      pos + 8 ≤ pos' ∧ data'.length - pos' < data.length - pos) := by
  unfold anonymizeNextChatMessage
  cases hcs : chatSearch data pos with
  | none => exact Or.inr (Or.inl rfl)
  | some s =>
    obtain ⟨hps, hsl⟩ := chatSearch_some data pos s hcs
    cases hdec : utf8Decode (pySlice data (s + 12) (le16At data (s + 8))) with
    | none => exact Or.inl ⟨.decodeError, by simp only [hdec]⟩
    | some cs =>
      cases hpid : pidSearch cs with
      | none => exact Or.inl ⟨.playerIdMissing, by simp only [hdec, hpid]⟩
      | some pid =>
        refine Or.inr (Or.inr ⟨s + 8 + (agpSub pid (cs.length + 1) cs).length,
          splice data (s + 8) (s + 12 + le16At data (s + 8))
            (le32Bytes (agpSub pid (cs.length + 1) cs).length ++
              utf8Encode (agpSub pid (cs.length + 1) cs)),
          by simp only [hdec, hpid], by omega, ?_⟩)
        set length := le16At data (s + 8) with hlen_def
        set chatBytes := pySlice data (s + 12) length with hcb
        set changed := agpSub pid (cs.length + 1) cs with hch
        have hBcs : (utf8Encode cs).length = chatBytes.length := by
          rw [utf8Encode_decode chatBytes.length chatBytes cs hdec]
        have hA : chatBytes.length = min length (data.length - (s + 12)) := by
          rw [hcb]
          simp [pySlice, List.length_take, List.length_drop]
        have hC := agpSub_ineq pid (cs.length + 1) cs
        have hE := length_le_utf8Encode changed
        have hD : (splice data (s + 8) (s + 12 + length)
            (le32Bytes changed.length ++ utf8Encode changed)).length =
            (s + 8) + (4 + (utf8Encode changed).length) +
            (data.length - (s + 12 + length)) := by
          rw [splice_length data _ _ _ (by omega)]
          simp [le32Bytes, List.length_append]
          omega
        rw [hD]
        rw [← hch, ← hlen_def] at *
        omega

theorem anonymizeChatGo_isSome : ∀ fuel pos data,
    data.length - pos < fuel → (anonymizeChatGo fuel pos data).isSome := by
  intro fuel
  induction fuel with
  | zero =>
      intro pos data h
      omega
  | succ f ih =>
      intro pos data h
      rw [anonymizeChatGo]
      rcases chat_step_spec pos data with ⟨e, he⟩ | hnone | ⟨pos', data', hstep, hadv, hdec⟩
      · rw [he]
        rfl
      · rw [hnone]
        rfl
      · rw [hstep]
        exact ih pos' data' (by omega)

/-- **C10** — Chat-pass termination: each call to
`_anonymize_next_chat_message` either raises, returns -1 (no further
sentinel), or returns a position at least 8 bytes past its input position with
the byte count from the returned position to the end of the (possibly
resized) buffer strictly decreased; consequently the scan loop of
`_anonymize_chat` reaches a terminal outcome within `len(operations) - pos`
steps (fuel `data.length - pos + 1` suffices). -/
theorem c10_chat_pass_termination :
    (∀ pos data, (∃ e, anonymizeNextChatMessage pos data = .error e) ∨
      anonymizeNextChatMessage pos data = .ok none ∨
      (∃ pos' data', anonymizeNextChatMessage pos data = .ok (some (pos', data')) ∧
        pos + 8 ≤ pos' ∧ data'.length - pos' < data.length - pos)) ∧
    (∀ fuel pos data, data.length - pos < fuel →
      (anonymizeChatGo fuel pos data).isSome) :=
  ⟨chat_step_spec, anonymizeChatGo_isSome⟩

/-- Witness for C10: the loop terminates on a concrete buffer (one chat
record) with the sufficient fuel. -/
theorem c10_chat_pass_termination_witness :
    (anonymizeChatGo 55 0 ([9, 9] ++ chatSentinel ++ [12, 0, 0, 0] ++
      [123, 34, 112, 108, 97, 121, 101, 114, 34, 58, 51, 125] ++ [8, 8])).isSome :=
  c10_chat_pass_termination.2 55 0 _ (by decide)

/-- A chat payload `{"player":3}`. -/
def chatPayload : List Byte := [123, 34, 112, 108, 97, 121, 101, 114, 34, 58, 51, 125]

/-- An operations buffer holding two chat records (plus filler bytes). -/
def chatDropFixture : List Byte :=
  [9, 9] ++ chatSentinel ++ [12, 0, 0, 0] ++ chatPayload ++
  [8, 8] ++ chatSentinel ++ [12, 0, 0, 0] ++ chatPayload ++ [7]

/-- **C4** — Chat drop-all (code bug): the chat pass of `rec_file.py` never
deletes a record and takes no retention-policy arguments (the CLI's
`main` passes `remove_system_chat` / `remove_player_chat` to
`RecFile.anonymize`, whose Python signature accepts none, so the CLI call
raises `TypeError`).  Evaluated on an operations buffer with two chat
records, the pass rewrites in place and returns the buffer bit-identical —
no record span is removed. -/
theorem c4_chat_drop_all_bug :
    RecFile.anonymizeChat ⟨0, 0, [], 0, [], chatDropFixture⟩ =
      .ok ⟨0, 0, [], 0, [], chatDropFixture⟩ ∧
    chatDropFixture.length = 53 ∧
    chatDropFixture ≠ [9, 9] ++ [8, 8] ++ [7] := by
  refine ⟨by rfl, by rfl, by decide⟩

/-! ## Player-count extractor (`RecFile._get_player_count`) and the
anonymization driver (`RecFile.anonymize`) -/

/-- The lobby-settings separator `\xA3\x5F\x02\x00`. -/
def sepSig : List Byte := [0xA3, 0x5F, 0x02, 0x00]

inductive PcErr where
  | zlibError
  | notFound
  | unpackError
  deriving DecidableEq, Repr

/-- `RecFile._get_player_count`: decompress the header, find the doubled
separator, and `unpack_from "<fIII"` at `match.end()`; the fourth field is the
player count.  `notFound` is the `Failed to get player count` exception;
`unpackError` is the `struct.error` raised when fewer than 16 bytes follow the
match. -/
def RecFile.getPlayerCount (r : RecFile) : Except PcErr Nat :=
  match inflateRaw r.header with
  | none => .error .zlibError
  | some data =>
    match substringFind data (sepSig ++ sepSig) 0 with
    | none => .error .notFound
    | some m =>
      if m + 8 + 16 ≤ data.length then .ok (le32At data (m + 8 + 12))
      else .error .unpackError

/-- `RecFile.anonymize`: obtain the player count (an exception here
propagates: it is raised before the `try` block), then run the three passes
inside `try/except` — the first failing pass stops the block, keeping the
mutations already committed by the earlier passes. -/
def RecFile.anonymize (r : RecFile) : Except PcErr RecFile :=
  match RecFile.getPlayerCount r with
  | .error e => .error e
  | .ok n =>
    .ok (match RecFile.anonymizePlayers r n with
      | .error _ => r
      | .ok r1 =>
        match RecFile.anonymizeChat r1 with
        | .error _ => r1
        | .ok r2 =>
          match RecFile.anonymizeElo r2 n with
          | .error _ => r2
          | .ok r3 => r3)

/-- A container whose header decompresses to exactly the 8 doubled-separator
bytes: the separator is present but no player count follows. -/
def shortCountRec : RecFile := ⟨0, 0, deflateRaw (sepSig ++ sepSig), 0, [], []⟩

/-- **C9 counterexample** — the claim's `if and only if` direction "when the
double separator is present, it returns the …integer" fails: on a payload
that ends right after the doubled separator, the separator is present, yet
`_get_player_count` raises a `struct.error` (not `NotFound`) and returns
nothing. -/
theorem c9_short_payload_counterexample :
    substringFind (sepSig ++ sepSig) (sepSig ++ sepSig) 0 = some 0 ∧
    RecFile.getPlayerCount shortCountRec = .error .unpackError ∧
    RecFile.anonymize shortCountRec = .error .unpackError := by
  refine ⟨by decide, by rfl, by rfl⟩

theorem getPlayerCount_red (r : RecFile) (data : List Byte)
    (hinf : inflateRaw r.header = some data) :
    RecFile.getPlayerCount r =
      (match substringFind data (sepSig ++ sepSig) 0 with
        | none => Except.error PcErr.notFound
        | some m =>
            if m + 8 + 16 ≤ data.length then Except.ok (le32At data (m + 8 + 12))
            else Except.error PcErr.unpackError) := by
  unfold RecFile.getPlayerCount
  rw [hinf]

/-- **C9 amended** — `_get_player_count` raises `NotFound` iff the
decompressed header lacks the doubled separator; when the separator is present
*and at least 16 bytes follow the match end*, it returns the little-endian u32
three 4-byte fields past the match end (with fewer bytes it raises a
`struct.error` instead); and any failure of `_get_player_count` aborts
`anonymize` before any player, chat or rating rewrite is attempted. -/
theorem c9_player_count (r : RecFile) :
    (∀ data, inflateRaw r.header = some data →
      (RecFile.getPlayerCount r = .error .notFound ↔
        substringFind data (sepSig ++ sepSig) 0 = none)) ∧
    (∀ data m, inflateRaw r.header = some data →
      substringFind data (sepSig ++ sepSig) 0 = some m →
      m + 8 + 16 ≤ data.length →
      RecFile.getPlayerCount r = .ok (le32At data (m + 8 + 12))) ∧
    (∀ e, RecFile.getPlayerCount r = .error e → RecFile.anonymize r = .error e) := by
  refine ⟨?_, ?_, ?_⟩
  · intro data hinf
    rw [getPlayerCount_red r data hinf]
    cases hsf : substringFind data (sepSig ++ sepSig) 0 with
    | none => simp
    | some m =>
        simp only []
        constructor
        · intro hcontra
          by_cases hb : m + 8 + 16 ≤ data.length
          · rw [if_pos hb] at hcontra
            exact absurd hcontra (by simp)
          · rw [if_neg hb] at hcontra
            simp at hcontra
        · intro hcontra
          simp at hcontra
  · intro data m hinf hsf hbound
    rw [getPlayerCount_red r data hinf, hsf]
    exact if_pos hbound
  · intro e he
    unfold RecFile.anonymize
    rw [he]

/-- Decompressed lobby-settings fixture for the C9 witness: doubled separator
followed by speed, treaty length, population limit and the player count 2. -/
def countData : List Byte :=
  sepSig ++ sepSig ++ le32Bytes 1 ++ le32Bytes 0 ++ le32Bytes 200 ++ le32Bytes 2

/-- Container whose header decompresses to `countData`. -/
def countRecFixture : RecFile := ⟨0, 0, deflateRaw countData, 0, [], []⟩

/-- Witness for the amended C9 on a well-formed fixture: doubled separator
followed by speed/treaty/population fields and the count 2; and the
short-payload container aborts `anonymize` with the unpack error. -/
theorem c9_player_count_witness :
    RecFile.getPlayerCount countRecFixture = .ok 2 ∧
    RecFile.anonymize shortCountRec = .error .unpackError := by
  have hinf : inflateRaw countRecFixture.header = some countData := by
    have hh : countRecFixture.header = deflateRaw countData := rfl
    rw [hh]
    exact inflateRaw_deflateRaw _
  constructor
  · have h := (c9_player_count countRecFixture).2.1 countData 0 hinf (by decide) (by decide)
    have hval : le32At countData (0 + 8 + 12) = 2 := by decide
    rw [h, hval]
  · exact (c9_player_count shortCountRec).2.2 .unpackError (by rfl)
